import Mathlib

/-!
Verification development for the `dynamicgraphviz` graph core
(`src/dynamicgraphviz/graph/graph.py`, `undirectedgraph.py`, `directedgraph.py`,
`helpers/shortestpaths.py`, `gui/graphDrawer.py`).

The Python classes are shallowly embedded as follows.

* Node objects are identified by their unique integer index
  (`_Node._index` is a monotone counter, so an index identifies a node
  object for its whole lifetime; indices are never reused).
* A link object (`Edge` or `Arc`) is the ordered pair of its endpoint
  indices, in insertion order, exactly as stored in `_Link._u, _Link._v`.
  Within one graph no two distinct link objects carry the same ordered
  pair (a consequence of the simplicity checks), so the pair identifies
  the object.
* Python dicts keyed by node objects are association lists in insertion
  order; Python sets are lists queried only through membership.
* A Python method that can raise is a Lean function into `Except PyErr`;
  state mutated before the raise is returned alongside the error, so a
  partially executed mutation is visible, exactly as in the source.
-/

/-- Endpoint pair of an `Edge` or `Arc`: `_Link._u` and `_Link._v`
(insertion order; for an `Arc` this is input node, output node). -/
structure Link where
  u : Nat
  v : Nat
deriving DecidableEq, Repr

/-- Exceptions observable from the embedded code, by Python class.
`graphError` is the plain `GraphError` raised on a self-loop attempt
(the spec's `GraphInvariant`), `linkError l` is a `LinkError` carrying
the pre-existing link `l` (the spec's `LinkExists`). -/
inductive PyErr where
  | typeError
  | nodeMembership (v : Nat)
  | linkMembership (l : Link)
  | graphError
  | linkError (l : Link)
  | nodeError (v : Nat)
  | attributeError
  | zeroDivisionError
  | valueError
deriving DecidableEq, Repr

/-- A Python value handed to a graph method: a `_Node` object (of either
family, identified by its globally unique index), a link object of the
graph's own family, or any other object. -/
inductive Entity where
  | node (i : Nat)
  | link (l : Link)
  | other
deriving DecidableEq, Repr

/-- Messages published through `pubsub` by the graph, with their `draw`
keyword (the spec's refresh hint). -/
inductive GEvent where
  | addNode (i : Nat) (draw : Bool)
  | removeNode (i : Nat) (draw : Bool)
  | addLink (l : Link) (draw : Bool)
  | removeLink (l : Link) (draw : Bool)
deriving DecidableEq, Repr

/-! Association lists standing for Python dicts (insertion order, unique
keys in all states the code builds). -/

/-- Lookup: `m[k]` / `m.get(k)`. -/
def alookup {α : Type} (m : List (Nat × α)) (k : Nat) : Option α :=
  match m with
  | [] => none
  | p :: rest => if p.1 = k then some p.2 else alookup rest k

/-- Membership test: `k in m`. -/
def dictMem {α : Type} (m : List (Nat × α)) (k : Nat) : Bool :=
  (alookup m k).isSome

/-- Deletion: `del m[k]`. -/
def dictDel {α : Type} (m : List (Nat × α)) (k : Nat) : List (Nat × α) :=
  m.filter (fun p => !decide (p.1 = k))

/-- Assignment `m[k] = x`: replace in place if the key exists, else
append (Python dicts keep the original position on overwrite). -/
def dictSet {α : Type} (m : List (Nat × α)) (k : Nat) (x : α) : List (Nat × α) :=
  match m with
  | [] => [(k, x)]
  | p :: rest => if p.1 = k then (k, x) :: rest else p :: dictSet rest k x

/-- Apply `f` to the value stored under `k` (first occurrence). -/
def updAssoc {α : Type} (m : List (Nat × α)) (k : Nat) (f : α → α) : List (Nat × α) :=
  match m with
  | [] => []
  | p :: rest => if p.1 = k then (p.1, f p.2) :: rest else p :: updAssoc rest k f

/-- Adjacency state stored inside one node object.  An `UndirectedNode`
uses only `edges` (its `__edges` dict neighbor ↦ edge); a `DirectedNode`
uses `inputArcs` (`__input_arcs`), `outputArcs` (`__output_arcs`) and
`nbrs` (its `__neighbors` set, queried only through membership). -/
structure NodeSt where
  edges : List (Nat × Link)
  inputArcs : List (Nat × Link)
  outputArcs : List (Nat × Link)
  nbrs : List Nat
deriving DecidableEq, Repr

/-- The freshly constructed node state (`UndirectedNode.__init__` /
`DirectedNode.__init__`). -/
def NodeSt.empty : NodeSt := ⟨[], [], [], []⟩

/-- One `_Graph` instance: the directedness flag, `__nodes` and
`__links` in insertion order, the state of every node object ever
created by this graph (objects outlive their removal from `__nodes`),
and the `_Node._index` counter. -/
structure GraphSt where
  directed : Bool
  nodes : List Nat
  links : List Link
  nodeSt : List (Nat × NodeSt)
  nextIdx : Nat
deriving DecidableEq, Repr

/-- A fresh `UndirectedGraph()` or `DirectedGraph()`. -/
def GraphSt.empty (directed : Bool) : GraphSt :=
  ⟨directed, [], [], [], 1⟩

/-- The state of the node object `i`, if this graph ever created it. -/
def GraphSt.stOf (g : GraphSt) (i : Nat) : Option NodeSt :=
  alookup g.nodeSt i

/-- Membership test `elem in g`.  `DirectedGraph` defines
`__contains__` (nodes and arcs); `UndirectedGraph` and `_Graph` do not,
so for an undirected graph `in` falls back to iteration over
`__iter__`, which yields only the nodes — an `Edge` is never `in` an
undirected graph. -/
def GraphSt.containsEnt (g : GraphSt) (e : Entity) : Bool :=
  if g.directed then
    match e with
    | .node i => decide (i ∈ g.nodes)
    | .link l => decide (l ∈ g.links)
    | .other => false
  else
    match e with
    | .node i => decide (i ∈ g.nodes)
    | _ => false

/-- `_Graph.add_node`: build the node, append it, publish
`add_node` with `draw=True`.  Never fails. -/
def GraphSt.add_node (g : GraphSt) : Nat × GraphSt × List GEvent :=
  let idx := g.nextIdx
  (idx,
   { g with nodes := g.nodes ++ [idx],
            nodeSt := g.nodeSt ++ [(idx, NodeSt.empty)],
            nextIdx := idx + 1 },
   [.addNode idx true])

/-- `_Graph.remove_node`.  `self.__nodes.remove(v)` succeeds or raises
`ValueError` (mapped to `NodeMembershipError` / `TypeError`); on the
success path the source then reads `v.incident_edges_and_arcs`, an
attribute no class of the package defines (`DirectedNode` has
`incident_arcs`, `UndirectedNode` has `incident_edges`), so an
`AttributeError` escapes after the node was already removed from
`__nodes` and before any link removal or message. -/
def GraphSt.remove_node (g : GraphSt) (v : Entity) :
    Except PyErr Unit × GraphSt × List GEvent :=
  match v with
  | .node i =>
    if i ∈ g.nodes then
      (.error .attributeError, { g with nodes := g.nodes.erase i }, [])
    else
      (.error (.nodeMembership i), g, [])
  | _ => (.error .typeError, g, [])

/-- `UndirectedNode._add_incident_edge` on the success path of
`_add_link`: `self.__edges[other] = e`. -/
def NodeSt.addIncidentEdge (st : NodeSt) (selfIdx : Nat) (e : Link) : NodeSt :=
  if selfIdx = e.u then { st with edges := st.edges ++ [(e.v, e)] }
  else if selfIdx = e.v then { st with edges := st.edges ++ [(e.u, e)] }
  else st

/-- `DirectedNode.is_input_neighbor_of(v)`: `v in self.__output_arcs`. -/
def NodeSt.is_input_neighbor_of (st : NodeSt) (v : Nat) : Bool :=
  dictMem st.outputArcs v

/-- `DirectedNode.is_output_neighbor_of(v)`: `v in self.__input_arcs`. -/
def NodeSt.is_output_neighbor_of (st : NodeSt) (v : Nat) : Bool :=
  dictMem st.inputArcs v

/-- `DirectedNode.is_neighbor_of(v)`: `v in self.__neighbors`. -/
def NodeSt.is_neighbor_of (st : NodeSt) (v : Nat) : Bool :=
  decide (v ∈ st.nbrs)

/-- `UndirectedNode.is_neighbor_of(v)`: `v in self.__edges`. -/
def NodeSt.is_neighbor_of_und (st : NodeSt) (v : Nat) : Bool :=
  dictMem st.edges v

/-- Update the stored state of node `i`. -/
def GraphSt.updNode (g : GraphSt) (i : Nat) (f : NodeSt → NodeSt) : GraphSt :=
  { g with nodeSt := updAssoc g.nodeSt i f }

/-- `_Graph._add_link(u, v)` (the body of `add_edge` / `add_arc`).
Checks run in source order: membership of `u`, membership of `v`
(each via the graph's `in`), the self-loop check, then the duplicate
check.  For an undirected graph the success path builds `Edge(u, v)`
and registers it at both endpoints.  For a directed graph the build
step is `Arc(self, u, v)`; `Arc` inherits `_Link.__init__(self, u, v)`,
so this call passes one positional argument too many and raises
`TypeError` before any state is touched — `add_arc` can never add an
arc.  The duplicate check itself reads `u.is_input_neighbor_of(v)`
(resp. `u.is_neighbor_of(v)`), which raises `AttributeError` if a
contained non-node (an `Arc` in a directed graph) was passed. -/
def GraphSt.add_link (g : GraphSt) (u v : Entity) :
    Except PyErr Link × GraphSt × List GEvent :=
  if ¬ g.containsEnt u then
    (match u with
     | .node i => (.error (.nodeMembership i), g, [])
     | _ => (.error .typeError, g, []))
  else if ¬ g.containsEnt v then
    (match v with
     | .node i => (.error (.nodeMembership i), g, [])
     | _ => (.error .typeError, g, []))
  else if u = v then
    (.error .graphError, g, [])
  else
    match u with
    | .node i =>
      if g.directed then
        match v with
        | .node j =>
          match alookup ((g.stOf i).getD NodeSt.empty).outputArcs j with
          | some a => (.error (.linkError a), g, [])
          | none => (.error .typeError, g, [])
        | _ => (.error .typeError, g, [])
      else
        match v with
        | .node j =>
          match alookup ((g.stOf i).getD NodeSt.empty).edges j with
          | some e => (.error (.linkError e), g, [])
          | none =>
            let lk : Link := ⟨i, j⟩
            let g1 := (g.updNode i (fun st => st.addIncidentEdge i lk))
            let g2 := (g1.updNode j (fun st => st.addIncidentEdge j lk))
            (.ok lk, { g2 with links := g2.links ++ [lk] }, [.addLink lk true])
        | _ => (.error .attributeError, g, [])
    | _ => (.error .attributeError, g, [])

/-- `UndirectedNode._remove_incident_edge(e)` followed by
`_remove_neighbor`: delete the other endpoint's key from `__edges`.
Every failure path of the source constructs an error message from
`self.__graph`, an attribute mangled to `_UndirectedNode__graph` that
was only ever set as `_Node__graph`, so those paths actually raise
`AttributeError`. -/
def NodeSt.removeIncidentEdge (st : NodeSt) (selfIdx : Nat) (e : Link) :
    Except PyErr NodeSt :=
  let w? : Option Nat :=
    if selfIdx = e.u then some e.v
    else if selfIdx = e.v then some e.u
    else none
  match w? with
  | some w =>
    if dictMem st.edges w then .ok { st with edges := dictDel st.edges w }
    else .error .attributeError
  | none => .error .attributeError

/-- `DirectedNode._remove_output_neighbor(v)`: delete `v` from
`__output_arcs`; if afterwards `not self.is_output_neighbor_of(v)`
(that is, `v` is no longer in `__input_arcs`), remove `v` from the
neighbor set.  Failure paths raise `AttributeError` for the same
mangled-`__graph` reason as above. -/
def NodeSt.removeOutputNeighbor (st : NodeSt) (v : Nat) : Except PyErr NodeSt :=
  if dictMem st.outputArcs v then
    let st1 := { st with outputArcs := dictDel st.outputArcs v }
    if st1.is_output_neighbor_of v then .ok st1
    else
      if v ∈ st1.nbrs then .ok { st1 with nbrs := st1.nbrs.erase v }
      else .error .attributeError
  else .error .attributeError

/-- `DirectedNode._remove_input_neighbor(v)`: delete `v` from
`__input_arcs`; if afterwards `not self.is_input_neighbor_of(v)`
(that is, `v` is no longer in `__output_arcs`), remove `v` from the
neighbor set. -/
def NodeSt.removeInputNeighbor (st : NodeSt) (v : Nat) : Except PyErr NodeSt :=
  if dictMem st.inputArcs v then
    let st1 := { st with inputArcs := dictDel st.inputArcs v }
    if st1.is_input_neighbor_of v then .ok st1
    else
      if v ∈ st1.nbrs then .ok { st1 with nbrs := st1.nbrs.erase v }
      else .error .attributeError
  else .error .attributeError

/-- `DirectedNode._remove_incident_arc(a)`: dispatch on which extremity
`self` is. -/
def NodeSt.removeIncidentArc (st : NodeSt) (selfIdx : Nat) (a : Link) :
    Except PyErr NodeSt :=
  if selfIdx = a.u then st.removeOutputNeighbor a.v
  else if selfIdx = a.v then st.removeInputNeighbor a.u
  else .error .attributeError

/-- Update node `i` of `g` through a fallible node-level operation,
keeping the graph unchanged if the node object does not exist. -/
def GraphSt.updNodeE (g : GraphSt) (i : Nat) (f : NodeSt → Except PyErr NodeSt) :
    Except PyErr GraphSt :=
  match g.stOf i with
  | some st =>
    match f st with
    | .ok st1 => .ok { g with nodeSt := dictSet g.nodeSt i st1 }
    | .error e => .error e
  | none => .error .attributeError

/-- `_Graph.__remove_link(l, draw)`: remove `l` from `__links` (or map
the `ValueError` to `LinkMembershipError` / `TypeError`), then detach
it from both endpoint objects, then publish `remove_arc` with the given
`draw` flag.  If detaching raises, `__links` has already lost `l`. -/
def GraphSt.remove_link_draw (g : GraphSt) (l : Entity) (draw : Bool) :
    Except PyErr Unit × GraphSt × List GEvent :=
  match l with
  | .link lk =>
    if lk ∈ g.links then
      let g1 := { g with links := g.links.erase lk }
      if g.directed then
        match g1.updNodeE lk.u (fun st => st.removeIncidentArc lk.u lk) with
        | .ok g2 =>
          match g2.updNodeE lk.v (fun st => st.removeIncidentArc lk.v lk) with
          | .ok g3 => (.ok (), g3, [.removeLink lk draw])
          | .error e => (.error e, g2, [])
        | .error e => (.error e, g1, [])
      else
        match g1.updNodeE lk.u (fun st => st.removeIncidentEdge lk.u lk) with
        | .ok g2 =>
          match g2.updNodeE lk.v (fun st => st.removeIncidentEdge lk.v lk) with
          | .ok g3 => (.ok (), g3, [.removeLink lk draw])
          | .error e => (.error e, g2, [])
        | .error e => (.error e, g1, [])
    else
      (.error (.linkMembership lk), g, [])
  | _ => (.error .typeError, g, [])

/-- `_Graph._remove_link` (the body of `remove_edge` / `remove_arc`):
`__remove_link` with `draw=True`. -/
def GraphSt.remove_link (g : GraphSt) (l : Entity) :
    Except PyErr Unit × GraphSt × List GEvent :=
  g.remove_link_draw l true

instance {ε α : Type} [DecidableEq ε] [DecidableEq α] : DecidableEq (Except ε α)
  | .ok x, .ok y =>
    if h : x = y then .isTrue (by rw [h]) else .isFalse (fun hh => h (by injection hh))
  | .ok _, .error _ => .isFalse (fun hh => by cases hh)
  | .error _, .ok _ => .isFalse (fun hh => by cases hh)
  | .error x, .error y =>
    if h : x = y then .isTrue (by rw [h]) else .isFalse (fun hh => h (by injection hh))

/-- `DirectedNode.get_input_arc(v)`: `self.__input_arcs[v]`.  On a
`KeyError` with `v` a node, the handler builds a `NodeError` from
`self.__graph`; that attribute is mangled to `_DirectedNode__graph`,
which is never set (only `_Node__graph` is), so the handler itself
raises `AttributeError`.  A non-node key raises `TypeError`. -/
def NodeSt.get_input_arc (st : NodeSt) (v : Entity) : Except PyErr Link :=
  match v with
  | .node j =>
    match alookup st.inputArcs j with
    | some a => .ok a
    | none => .error .attributeError
  | _ => .error .typeError

/-- `DirectedNode.get_output_arc(v)`: `self.__output_arcs[v]`, with the
same failure behavior as `get_input_arc`. -/
def NodeSt.get_output_arc (st : NodeSt) (v : Entity) : Except PyErr Link :=
  match v with
  | .node j =>
    match alookup st.outputArcs j with
    | some a => .ok a
    | none => .error .attributeError
  | _ => .error .typeError

/-- `DirectedNode.get_incident_arc(v)`: try `get_input_arc`; re-raise a
`TypeError`; fall back to `get_output_arc` on a `NodeError`.  Since the
missing-key path of `get_input_arc` actually raises `AttributeError`
(not `NodeError`), the fallback branch is dead and the error
propagates. -/
def NodeSt.get_incident_arc (st : NodeSt) (v : Entity) : Except PyErr Link :=
  match st.get_input_arc v with
  | .ok a => .ok a
  | .error .typeError => .error .typeError
  | .error (.nodeError _) => st.get_output_arc v
  | .error e => .error e

example :
    (GraphSt.empty false).add_node =
      (1, ⟨false, [1], [], [(1, NodeSt.empty)], 2⟩, [.addNode 1 true]) := by
  decide

example :
    ((((GraphSt.empty false).add_node.2.1).add_node.2.1).add_link
        (.node 1) (.node 2)).1 = .ok ⟨1, 2⟩ := by
  decide

example :
    ((((GraphSt.empty true).add_node.2.1).add_node.2.1).add_link
        (.node 1) (.node 2)).1 = .error .typeError := by
  decide

/-! Breadth-first search, `helpers/shortestpaths.py` and the identical
`gui/graphDrawer.py::_breadth_first_search`.  The traversal is over
`u.neighbors`: the keys of `__edges` for an undirected node, the
`__neighbors` set for a directed node. -/

/-- Neighbor iteration of a node, `u.neighbors`. -/
def GraphSt.neighborsOf (g : GraphSt) (u : Nat) : List Nat :=
  if g.directed then ((g.stOf u).getD NodeSt.empty).nbrs
  else ((g.stOf u).getD NodeSt.empty).edges.map Prod.fst

/-- Every neighbor recorded in any node object is a node of the graph.
This holds in every state the public operations can build and is what
makes the search well defined. -/
def AdjClosed (g : GraphSt) : Prop :=
  ∀ p ∈ g.nodeSt, (∀ q ∈ p.2.edges, q.1 ∈ g.nodes) ∧ (∀ x ∈ p.2.nbrs, x ∈ g.nodes)

instance (g : GraphSt) : Decidable (AdjClosed g) := by
  unfold AdjClosed
  exact List.decidableBAll _ _

theorem alookup_mem {α : Type} {m : List (Nat × α)} {k : Nat} {x : α}
    (h : alookup m k = some x) : (k, x) ∈ m := by
  induction m with
  | nil => simp [alookup] at h
  | cons p rest ih =>
    rcases p with ⟨a, b⟩
    by_cases hp : a = k
    · subst hp
      simp [alookup] at h
      simp [h]
    · simp [alookup, hp] at h
      exact List.mem_cons_of_mem _ (ih h)

theorem neighborsOf_closed (g : GraphSt) (hg : AdjClosed g) :
    ∀ u, ∀ w ∈ g.neighborsOf u, w ∈ g.nodes := by
  intro u w hw
  unfold GraphSt.neighborsOf at hw
  cases hst : g.stOf u with
  | none =>
    rw [hst] at hw
    cases hd : g.directed <;> rw [hd] at hw <;> simp [NodeSt.empty] at hw
  | some st =>
    have hmem := alookup_mem (m := g.nodeSt) hst
    have hc := hg _ hmem
    rw [hst] at hw
    cases hd : g.directed
    · rw [hd] at hw
      simp only [Bool.false_eq_true, if_false, Option.getD_some, List.mem_map] at hw
      obtain ⟨q, hq, hqe⟩ := hw
      rw [← hqe]
      exact hc.1 q hq
    · rw [hd] at hw
      simp only [if_true, Option.getD_some] at hw
      exact hc.2 w hw

/-- Index of the first entry satisfying `p`, or the length when no
entry does.  Used only in the termination measure of the search. -/
def firstSat (p : Nat → Bool) : List Nat → Nat
  | [] => 0
  | x :: rest => if p x then 0 else firstSat p rest + 1

theorem firstSat_append_all (p : Nat → Bool) (l1 l2 : List Nat)
    (h : ∀ x ∈ l2, p x = true) : firstSat p (l1 ++ l2) ≤ firstSat p l1 := by
  induction l1 with
  | nil =>
    cases hl : l2 with
    | nil => simp [firstSat]
    | cons y rest =>
      have hy := h y (by simp [hl])
      simp [firstSat, hy]
  | cons a r ih =>
    by_cases hp : p a = true
    · simp [firstSat, hp]
    · have hp' : p a = false := by revert hp; cases p a <;> simp
      simp only [List.cons_append, firstSat, hp', Bool.false_eq_true, if_false,
        List.append_eq]
      omega

theorem filter_imp_length_le (p q : Nat → Bool) (l : List Nat)
    (h : ∀ x, q x = true → p x = true) :
    (l.filter q).length ≤ (l.filter p).length := by
  induction l with
  | nil => simp
  | cons a r ih =>
    by_cases hq : q a = true
    · simp only [List.filter_cons, hq, h a hq, if_true, List.length_cons]
      omega
    · have hq' : q a = false := by revert hq; cases q a <;> simp
      by_cases hp : p a = true
      · simp only [List.filter_cons, hq', hp, Bool.false_eq_true, if_false,
          if_true, List.length_cons]
        omega
      · have hp' : p a = false := by revert hp; cases p a <;> simp
        simp only [List.filter_cons, hq', hp', Bool.false_eq_true, if_false]
        exact ih

theorem filter_unvisited_cons_lt (l : List Nat) (u : Nat) (vis : List Nat)
    (hul : u ∈ l) (huv : u ∉ vis) :
    (l.filter fun x => !decide (x ∈ u :: vis)).length <
      (l.filter fun x => !decide (x ∈ vis)).length := by
  induction l with
  | nil => cases hul
  | cons a r ih =>
    by_cases hau : a = u
    · subst hau
      have h1 : (!decide (a ∈ a :: vis)) = false := by simp
      have h2 : (!decide (a ∈ vis)) = true := by simp [huv]
      simp only [List.filter_cons, h1, h2, Bool.false_eq_true, if_false, if_true,
        List.length_cons]
      have hmono := filter_imp_length_le (fun x => !decide (x ∈ vis))
        (fun x => !decide (x ∈ a :: vis)) r
        (by
          intro x hx
          simp only [Bool.not_eq_true', decide_eq_false_iff_not, List.mem_cons] at hx ⊢
          tauto)
      omega
    · have hur : u ∈ r := by
        cases hul with
        | head => exact absurd rfl hau
        | tail _ h => exact h
      have heq : (!decide (a ∈ u :: vis)) = (!decide (a ∈ vis)) := by
        by_cases hav : a ∈ vis
        · simp [hav]
        · simp [List.mem_cons, hau, hav]
      by_cases hmem : (!decide (a ∈ vis)) = true
      · simp only [List.filter_cons, heq, hmem, if_true, List.length_cons]
        have := ih hur
        omega
      · have hmem' : (!decide (a ∈ vis)) = false := by
          revert hmem; cases (!decide (a ∈ vis)) <;> simp
        simp only [List.filter_cons, heq, hmem', Bool.false_eq_true, if_false]
        exact ih hur

/-- Inner `for v in u.neighbors` loop of the search: skip visited
nodes, set `dist[v] = dist[u] + 1` when `v` has no distance yet or a
larger one, and append `v` to the queue. -/
def bfsVisit (visited : List Nat) (du : Nat) (nbrs : List Nat)
    (dist : List (Nat × Nat)) (acc : List Nat) :
    List (Nat × Nat) × List Nat :=
  match nbrs with
  | [] => (dist, acc)
  | w :: rest =>
    if w ∈ visited then bfsVisit visited du rest dist acc
    else
      let dist1 :=
        match alookup dist w with
        | none => dictSet dist w (du + 1)
        | some dw => if du + 1 < dw then dictSet dist w (du + 1) else dist
      bfsVisit visited du rest dist1 (acc ++ [w])

theorem bfsVisit_acc (visited : List Nat) (du : Nat) (nbrs : List Nat)
    (dist : List (Nat × Nat)) (acc : List Nat) :
    (bfsVisit visited du nbrs dist acc).2 =
      acc ++ nbrs.filter (fun w => !decide (w ∈ visited)) := by
  induction nbrs generalizing dist acc with
  | nil => simp [bfsVisit]
  | cons w rest ih =>
    by_cases hw : w ∈ visited
    · simp [bfsVisit, hw, ih]
    · simp [bfsVisit, hw, ih]

/-- The queue-processing loop of `breadth_first_search_distances`.
`allNodes` together with the closure hypothesis `hadj` only serve the
termination argument: a pop either visits a new node of `allNodes` or
brings the first unvisited entry of the queue strictly closer to the
front. -/
def bfsLoop (allNodes : List Nat) (adj : Nat → List Nat)
    (hadj : ∀ u, ∀ w ∈ adj u, w ∈ allNodes)
    (queue visited : List Nat) (dist : List (Nat × Nat)) :
    List (Nat × Nat) :=
  match queue with
  | [] => dist
  | u :: rest =>
    bfsLoop allNodes adj hadj
      (rest ++ (bfsVisit (u :: visited) ((alookup dist u).getD 0) (adj u) dist []).2)
      (u :: visited)
      (bfsVisit (u :: visited) ((alookup dist u).getD 0) (adj u) dist []).1
termination_by
  ((allNodes.filter fun x => !decide (x ∈ visited)).length,
   firstSat (fun x => decide (x ∈ allNodes) && !decide (x ∈ visited)) queue)
decreasing_by
  by_cases hcase : x ∈ allNodes ∧ x ∉ visited
  · exact Prod.Lex.left _ _
      (filter_unvisited_cons_lt allNodes x visited hcase.1 hcase.2)
  · have hcase2 : x ∈ allNodes → x ∈ visited := by
      intro h1
      by_cases h2 : x ∈ visited
      · exact h2
      · exact absurd ⟨h1, h2⟩ hcase
    have hfilter :
        (allNodes.filter fun y => !decide (y ∈ x :: visited)) =
          (allNodes.filter fun y => !decide (y ∈ visited)) := by
      apply List.filter_congr
      intro y hy
      by_cases hyx : y = x
      · subst hyx
        have := hcase2 hy
        simp [this]
      · simp [List.mem_cons, hyx]
    have hPeq :
        (fun y => decide (y ∈ allNodes) && !decide (y ∈ x :: visited)) =
        (fun y => decide (y ∈ allNodes) && !decide (y ∈ visited)) := by
      funext y
      by_cases hyx : y = x
      · subst hyx
        by_cases hv : y ∈ visited
        · simp [hv]
        · have hyA : y ∉ allNodes := fun h1 => hv (hcase2 h1)
          simp [hyA]
      · simp [List.mem_cons, hyx]
    rw [hfilter, hPeq]
    apply Prod.Lex.right
    have hPx : (decide (x ∈ allNodes) && !decide (x ∈ visited)) = false := by
      by_cases hv : x ∈ visited
      · simp [hv]
      · have hyA : x ∉ allNodes := fun h1 => hv (hcase2 h1)
        simp [hyA]
    have hall : ∀ y ∈ (bfsVisit (x :: visited) ((alookup dist x).getD 0)
        (adj x) dist []).2,
        (decide (y ∈ allNodes) && !decide (y ∈ visited)) = true := by
      intro y hy
      rw [bfsVisit_acc] at hy
      simp only [List.nil_append, List.mem_filter, Bool.not_eq_true',
        decide_eq_false_iff_not, List.mem_cons] at hy
      obtain ⟨hy1, hy2⟩ := hy
      have hyA : y ∈ allNodes := hadj x y hy1
      have hyv : y ∉ visited := fun h1 => hy2 (Or.inr h1)
      simp [hyA, hyv]
    calc firstSat (fun y => decide (y ∈ allNodes) && !decide (y ∈ visited))
          (rest ++ (bfsVisit (x :: visited) ((alookup dist x).getD 0)
            (adj x) dist []).2)
        ≤ firstSat (fun y => decide (y ∈ allNodes) && !decide (y ∈ visited)) rest :=
          firstSat_append_all _ _ _ hall
      _ < firstSat (fun y => decide (y ∈ allNodes) && !decide (y ∈ visited))
            (x :: rest) := by
          simp [firstSat, hPx]

/-- `breadth_first_search_distances(g, v)`: queue `[v]`, empty visited
set, `dist = {v: 0}`. -/
def breadth_first_search_distances (g : GraphSt) (hg : AdjClosed g) (v : Nat) :
    List (Nat × Nat) :=
  bfsLoop g.nodes g.neighborsOf (neighborsOf_closed g hg) [v] [] [(v, 0)]

/-! Specification of the search and the invariants used to prove it. -/

/-- Walks of the adjacency relation: `reach adj s n v` means some walk
of length exactly `n` goes from `s` to `v`. -/
def reach (adj : Nat → List Nat) (s : Nat) : Nat → Nat → Prop
  | 0, v => v = s
  | n + 1, v => ∃ u, reach adj s n u ∧ v ∈ adj u

/-- Distance value recorded for `x` (defined only on keys; `0` padding
is never read off a key). -/
def dval (dist : List (Nat × Nat)) (x : Nat) : Nat :=
  (alookup dist x).getD 0

theorem alookup_dictSet_self {α : Type} (m : List (Nat × α)) (k : Nat) (x : α) :
    alookup (dictSet m k x) k = some x := by
  induction m with
  | nil => simp [dictSet, alookup]
  | cons p rest ih =>
    by_cases hp : p.1 = k
    · simp [dictSet, hp, alookup]
    · simp [dictSet, hp, alookup, ih]

theorem alookup_dictSet_ne {α : Type} (m : List (Nat × α)) (k j : Nat) (x : α)
    (h : j ≠ k) : alookup (dictSet m k x) j = alookup m j := by
  induction m with
  | nil =>
    have hkj : ¬ (k = j) := fun hh => h hh.symm
    simp [dictSet, alookup, hkj]
  | cons p rest ih =>
    by_cases hp : p.1 = k
    · have hpj : ¬ (p.1 = j) := by rw [hp]; exact fun hh => h hh.symm
      have hkj : ¬ (k = j) := fun hh => h hh.symm
      simp [dictSet, hp, alookup, hpj, hkj]
    · by_cases hpj : p.1 = j
      · simp [dictSet, hp, alookup, hpj, h]
      · simp [dictSet, hp, alookup, hpj, ih]

/-- First-occurrence deduplication of a list, used to speak about the
queue with its duplicate entries ignored. -/
def dedupF : List Nat → List Nat
  | [] => []
  | x :: rest => x :: (dedupF rest).filter (fun y => !decide (y = x))

theorem dedupF_cons (x : Nat) (rest : List Nat) :
    dedupF (x :: rest) = x :: (dedupF rest).filter (fun y => !decide (y = x)) := rfl

theorem dedupF_mem (l : List Nat) (a : Nat) : a ∈ dedupF l ↔ a ∈ l := by
  induction l with
  | nil => simp [dedupF]
  | cons x rest ih =>
    simp only [dedupF_cons, List.mem_cons, List.mem_filter, Bool.not_eq_eq_eq_not,
      Bool.not_false, decide_eq_true_eq]
    constructor
    · rintro (h | ⟨h1, _⟩)
      · exact Or.inl h
      · exact Or.inr (ih.1 h1)
    · rintro (h | h)
      · exact Or.inl h
      · by_cases hax : a = x
        · exact Or.inl hax
        · refine Or.inr ⟨ih.2 h, ?_⟩
          simp [hax]

theorem filter_ne_idem (l : List Nat) (a : Nat) :
    (l.filter (fun y => !decide (y = a))).filter (fun y => !decide (y = a)) =
      l.filter (fun y => !decide (y = a)) := by
  rw [List.filter_filter]
  apply List.filter_congr
  intro y _
  cases decide (y = a) <;> simp

theorem dedupF_filter (l : List Nat) (a : Nat) :
    dedupF (l.filter (fun y => !decide (y = a))) =
      (dedupF l).filter (fun y => !decide (y = a)) := by
  induction l with
  | nil => simp [dedupF]
  | cons x rest ih =>
    by_cases hxa : x = a
    · subst hxa
      rw [List.filter_cons, if_neg (by simp), ih, dedupF_cons,
        List.filter_cons, if_neg (by simp), filter_ne_idem]
    · rw [List.filter_cons, if_pos (by simp [hxa]), dedupF_cons, dedupF_cons, ih,
        List.filter_cons, if_pos (by simp [hxa])]
      congr 1
      rw [List.filter_filter, List.filter_filter]
      apply List.filter_congr
      intro y _
      cases decide (y = a) <;> cases decide (y = x) <;> simp

theorem dedupF_append (l1 l2 : List Nat) :
    dedupF (l1 ++ l2) = dedupF l1 ++ (dedupF l2).filter (fun y => !decide (y ∈ l1)) := by
  induction l1 with
  | nil => simp [dedupF]
  | cons x rest ih =>
    rw [List.cons_append, dedupF_cons, ih, dedupF_cons, List.filter_append,
      List.cons_append]
    congr 2
    rw [List.filter_filter]
    apply List.filter_congr
    intro y _
    by_cases h1 : y = x <;> by_cases h2 : y ∈ rest <;>
      simp [List.mem_cons, h1, h2]

theorem bfsVisit_lookup (visited1 : List Nat) (du : Nat) (nbrs : List Nat) :
    ∀ (dist : List (Nat × Nat)) (acc : List Nat),
    (∀ w ∈ nbrs, ∀ dw, alookup dist w = some dw → dw ≤ du + 1) →
    (∀ x dx, alookup dist x = some dx →
        alookup (bfsVisit visited1 du nbrs dist acc).1 x = some dx) ∧
    (∀ x, alookup dist x = none → x ∈ nbrs → x ∉ visited1 →
        alookup (bfsVisit visited1 du nbrs dist acc).1 x = some (du + 1)) ∧
    (∀ x, alookup dist x = none → (x ∉ nbrs ∨ x ∈ visited1) →
        alookup (bfsVisit visited1 du nbrs dist acc).1 x = none) := by
  induction nbrs with
  | nil =>
    intro dist acc _
    refine ⟨fun x dx h => ?_, fun x _ hx _ => absurd hx (List.not_mem_nil x), fun x h _ => ?_⟩
    · simpa [bfsVisit] using h
    · simpa [bfsVisit] using h
  | cons w rest ih =>
    intro dist acc hb
    by_cases hw : w ∈ visited1
    · have hrun : bfsVisit visited1 du (w :: rest) dist acc =
          bfsVisit visited1 du rest dist acc := by
        simp [bfsVisit, hw]
      have IH := ih dist acc (fun w' hw' dw hdw => hb w' (List.mem_cons_of_mem _ hw') dw hdw)
      rw [hrun]
      refine ⟨IH.1, fun x hx hmem hnv => ?_, fun x hx hmem => ?_⟩
      · rcases List.mem_cons.1 hmem with hxw | hxr
        · exact absurd (hxw ▸ hw) hnv
        · exact IH.2.1 x hx hxr hnv
      · rcases hmem with hnm | hv
        · exact IH.2.2 x hx (Or.inl fun hr => hnm (List.mem_cons_of_mem _ hr))
        · exact IH.2.2 x hx (Or.inr hv)
    · cases hlk : alookup dist w with
      | some dw =>
        have hno : ¬ (du + 1 < dw) := by
          have := hb w (List.mem_cons_self w rest) dw hlk
          omega
        have hrun : bfsVisit visited1 du (w :: rest) dist acc =
            bfsVisit visited1 du rest dist (acc ++ [w]) := by
          simp [bfsVisit, hw, hlk, hno]
        have IH := ih dist (acc ++ [w])
          (fun w' hw' dw' hdw' => hb w' (List.mem_cons_of_mem _ hw') dw' hdw')
        rw [hrun]
        refine ⟨IH.1, fun x hx hmem hnv => ?_, fun x hx hmem => ?_⟩
        · rcases List.mem_cons.1 hmem with hxw | hxr
          · rw [hxw] at hx
            rw [hx] at hlk
            cases hlk
          · exact IH.2.1 x hx hxr hnv
        · rcases hmem with hnm | hv
          · exact IH.2.2 x hx (Or.inl fun hr => hnm (List.mem_cons_of_mem _ hr))
          · exact IH.2.2 x hx (Or.inr hv)
      | none =>
        have hrun : bfsVisit visited1 du (w :: rest) dist acc =
            bfsVisit visited1 du rest (dictSet dist w (du + 1)) (acc ++ [w]) := by
          simp [bfsVisit, hw, hlk]
        have hb1 : ∀ w' ∈ rest, ∀ dw', alookup (dictSet dist w (du + 1)) w' = some dw' →
            dw' ≤ du + 1 := by
          intro w' hw' dw' hdw'
          by_cases hww : w' = w
          · rw [hww, alookup_dictSet_self] at hdw'
            cases hdw'
            exact le_refl _
          · rw [alookup_dictSet_ne dist w w' (du + 1) hww] at hdw'
            exact hb w' (List.mem_cons_of_mem _ hw') dw' hdw'
        have IH := ih (dictSet dist w (du + 1)) (acc ++ [w]) hb1
        rw [hrun]
        refine ⟨fun x dx hx => ?_, fun x hx hmem hnv => ?_, fun x hx hmem => ?_⟩
        · have hxw : x ≠ w := by
            intro hh
            rw [hh, hlk] at hx
            cases hx
          exact IH.1 x dx (by rw [alookup_dictSet_ne dist w x (du + 1) hxw]; exact hx)
        · rcases List.mem_cons.1 hmem with hxw | hxr
          · subst hxw
            exact IH.1 x (du + 1) (alookup_dictSet_self dist x (du + 1))
          · by_cases hxw : x = w
            · subst hxw
              exact IH.1 x (du + 1) (alookup_dictSet_self dist x (du + 1))
            · exact IH.2.1 x
                (by rw [alookup_dictSet_ne dist w x (du + 1) hxw]; exact hx) hxr hnv
        · have hxw : x ≠ w := by
            intro hh
            rcases hmem with hnm | hv
            · exact hnm (hh ▸ List.mem_cons_self w rest)
            · exact hw (hh ▸ hv)
          refine IH.2.2 x (by rw [alookup_dictSet_ne dist w x (du + 1) hxw]; exact hx) ?_
          rcases hmem with hnm | hv
          · exact Or.inl fun hr => hnm (List.mem_cons_of_mem _ hr)
          · exact Or.inr hv

theorem bfsVisit_keyed_unchanged (visited1 : List Nat) (du : Nat) (nbrs : List Nat) :
    ∀ (dist : List (Nat × Nat)) (acc : List Nat),
    (∀ w ∈ nbrs, ∃ dw, alookup dist w = some dw ∧ dw ≤ du + 1) →
    (bfsVisit visited1 du nbrs dist acc).1 = dist := by
  induction nbrs with
  | nil =>
    intro dist acc _
    simp [bfsVisit]
  | cons w rest ih =>
    intro dist acc hk
    by_cases hw : w ∈ visited1
    · rw [show bfsVisit visited1 du (w :: rest) dist acc =
          bfsVisit visited1 du rest dist acc by simp [bfsVisit, hw]]
      exact ih dist acc (fun w' hw' => hk w' (List.mem_cons_of_mem _ hw'))
    · obtain ⟨dw, hdw, hle⟩ := hk w (List.mem_cons_self w rest)
      have hno : ¬ (du + 1 < dw) := by omega
      rw [show bfsVisit visited1 du (w :: rest) dist acc =
          bfsVisit visited1 du rest dist (acc ++ [w]) by simp [bfsVisit, hw, hdw, hno]]
      exact ih dist (acc ++ [w]) (fun w' hw' => hk w' (List.mem_cons_of_mem _ hw'))

theorem filter_nil_of_all {α : Type} (p : α → Bool) (l : List α)
    (h : ∀ a ∈ l, p a = false) : l.filter p = [] := by
  induction l with
  | nil => simp
  | cons a rest ih =>
    rw [List.filter_cons, h a (List.mem_cons_self a rest)]
    simp only [Bool.false_eq_true, if_false]
    exact ih (fun b hb => h b (List.mem_cons_of_mem _ hb))

theorem filter_self_of_all {α : Type} (p : α → Bool) (l : List α)
    (h : ∀ a ∈ l, p a = true) : l.filter p = l := by
  induction l with
  | nil => simp
  | cons a rest ih =>
    rw [List.filter_cons, h a (List.mem_cons_self a rest)]
    simp only [if_true]
    rw [ih (fun b hb => h b (List.mem_cons_of_mem _ hb))]

/-- Loop invariant tying the queue, the visited set and the distance
dict of the search together.  `sorted` and `window` describe the
values along the queue with duplicate entries ignored; `visMin` says
visited nodes carry the smallest recorded distances. -/
structure BfsInv (adj : Nat → List Nat) (s : Nat)
    (queue visited : List Nat) (dist : List (Nat × Nat)) : Prop where
  sound : ∀ x d, alookup dist x = some d → reach adj s d x
  src : alookup dist s = some 0
  queueKeys : ∀ u ∈ queue, (alookup dist u).isSome = true
  visKeys : ∀ w ∈ visited, (alookup dist w).isSome = true
  closure : ∀ w ∈ visited, ∀ y ∈ adj w, ∃ dy,
    alookup dist y = some dy ∧ dy ≤ dval dist w + 1
  covered : ∀ x, (alookup dist x).isSome = true → x ∈ visited ∨ x ∈ queue
  sorted : List.Pairwise (fun a b => dval dist a ≤ dval dist b)
    (dedupF (queue.filter (fun x => !decide (x ∈ visited))))
  window : ∀ a b, (alookup dist a).isSome = true → a ∉ visited →
    (alookup dist b).isSome = true → b ∉ visited → dval dist a ≤ dval dist b + 1
  visMin : ∀ w ∈ visited, ∀ x, (alookup dist x).isSome = true → x ∉ visited →
    dval dist w ≤ dval dist x

theorem BfsInv.init (adj : Nat → List Nat) (s : Nat) :
    BfsInv adj s [s] [] [(s, 0)] := by
  have hlk : ∀ x : Nat, alookup [(s, 0)] x = if s = x then some 0 else none := by
    intro x
    simp [alookup]
  constructor
  · intro x d h
    rw [hlk] at h
    by_cases hsx : s = x
    · rw [if_pos hsx] at h
      cases h
      exact hsx.symm ▸ (rfl : reach adj s 0 s)
    · rw [if_neg hsx] at h
      cases h
  · rw [hlk, if_pos rfl]
  · intro u hu
    rcases List.mem_singleton.1 hu with rfl
    rw [hlk, if_pos rfl]
    rfl
  · intro w hw
    cases hw
  · intro w hw
    cases hw
  · intro x hx
    rw [hlk] at hx
    by_cases hsx : s = x
    · exact Or.inr (hsx ▸ List.mem_singleton_self s)
    · rw [if_neg hsx] at hx
      cases hx
  · simp [dedupF]
  · intro a b ha _ hb _
    rw [hlk] at ha hb
    by_cases hsa : s = a
    · by_cases hsb : s = b
      · subst hsa; subst hsb
        omega
      · rw [if_neg hsb] at hb
        cases hb
    · rw [if_neg hsa] at ha
      cases ha
  · intro w hw
    cases hw

theorem BfsInv.step_dup (adj : Nat → List Nat) (s u : Nat) (rest visited : List Nat)
    (dist : List (Nat × Nat)) (inv : BfsInv adj s (u :: rest) visited dist)
    (hvu : u ∈ visited) :
    BfsInv adj s
      (rest ++ (bfsVisit (u :: visited) ((alookup dist u).getD 0) (adj u) dist []).2)
      (u :: visited)
      (bfsVisit (u :: visited) ((alookup dist u).getD 0) (adj u) dist []).1 := by
  obtain ⟨du, hdu⟩ := Option.isSome_iff_exists.1 (inv.queueKeys u (List.mem_cons_self u rest))
  have hgd : (alookup dist u).getD 0 = du := by rw [hdu]; rfl
  have hclu := inv.closure u hvu
  have hdval : dval dist u = du := by unfold dval; rw [hdu]; rfl
  have hD : (bfsVisit (u :: visited) ((alookup dist u).getD 0) (adj u) dist []).1 = dist := by
    apply bfsVisit_keyed_unchanged
    intro w hw
    obtain ⟨dy, h1, h2⟩ := hclu w hw
    exact ⟨dy, h1, by rw [hgd]; rw [hdval] at h2; exact h2⟩
  have hout : (bfsVisit (u :: visited) ((alookup dist u).getD 0) (adj u) dist []).2 =
      (adj u).filter (fun w => !decide (w ∈ u :: visited)) := by
    rw [bfsVisit_acc]
    simp
  rw [hD, hout]
  have houtKeys : ∀ w ∈ (adj u).filter (fun w => !decide (w ∈ u :: visited)),
      (alookup dist w).isSome = true ∧ w ∈ rest ∧ w ∉ visited := by
    intro w hw
    rw [List.mem_filter] at hw
    obtain ⟨hw1, hw2⟩ := hw
    have hw2' : w ≠ u ∧ w ∉ visited := by
      simpa [List.mem_cons, not_or] using hw2
    obtain ⟨dy, h1, _⟩ := hclu w hw1
    have hk : (alookup dist w).isSome = true := by rw [h1]; rfl
    refine ⟨hk, ?_, hw2'.2⟩
    rcases inv.covered w hk with h | h
    · exact absurd h hw2'.2
    · rcases List.mem_cons.1 h with h' | h'
      · exact absurd h' hw2'.1
      · exact h'
  constructor
  · exact inv.sound
  · exact inv.src
  · intro x hx
    rcases List.mem_append.1 hx with h | h
    · exact inv.queueKeys x (List.mem_cons_of_mem _ h)
    · exact (houtKeys x h).1
  · intro w hw
    rcases List.mem_cons.1 hw with h | h
    · rw [h, hdu]; rfl
    · exact inv.visKeys w h
  · intro w hw
    rcases List.mem_cons.1 hw with h | h
    · exact h ▸ inv.closure u hvu
    · exact inv.closure w h
  · intro x hx
    rcases inv.covered x hx with h | h
    · exact Or.inl (List.mem_cons_of_mem _ h)
    · rcases List.mem_cons.1 h with h' | h'
      · exact Or.inl (h' ▸ List.mem_cons_self u visited)
      · exact Or.inr (List.mem_append_left _ h')
  · have hfeq : ∀ (l : List Nat),
        l.filter (fun x => !decide (x ∈ u :: visited)) =
          l.filter (fun x => !decide (x ∈ visited)) := by
      intro l
      apply List.filter_congr
      intro x _
      by_cases hxu : x = u
      · subst hxu
        simp [hvu]
      · simp [List.mem_cons, hxu]
    have hdrop2 : ((adj u).filter
        (fun w => !decide (w ∈ u :: visited))).filter (fun x => !decide (x ∈ u :: visited)) =
        (adj u).filter (fun w => !decide (w ∈ u :: visited)) := by
      apply filter_self_of_all
      intro a ha
      rw [List.mem_filter] at ha
      exact ha.2
    rw [List.filter_append, hfeq rest, hdrop2]
    rw [dedupF_append]
    have hnil : ((dedupF ((adj u).filter (fun w => !decide (w ∈ u :: visited)))).filter
        (fun y => !decide (y ∈ rest.filter (fun x => !decide (x ∈ visited))))) = [] := by
      apply filter_nil_of_all
      intro a ha
      have hmem := (dedupF_mem _ a).1 ha
      have h2 := houtKeys a hmem
      have : a ∈ rest.filter (fun x => !decide (x ∈ visited)) := by
        rw [List.mem_filter]
        exact ⟨h2.2.1, by simp [h2.2.2]⟩
      simp [this]
    rw [hnil, List.append_nil]
    have hsrc := inv.sorted
    have hql : (u :: rest).filter (fun x => !decide (x ∈ visited)) =
        rest.filter (fun x => !decide (x ∈ visited)) := by
      rw [List.filter_cons, if_neg (by simp [hvu])]
    rw [hql] at hsrc
    exact hsrc
  · intro a b ha hav hb hbv
    exact inv.window a b ha (fun h => hav (List.mem_cons_of_mem _ h))
      hb (fun h => hbv (List.mem_cons_of_mem _ h))
  · intro w hw x hx hxv
    have hxv' : x ∉ visited := fun h => hxv (List.mem_cons_of_mem _ h)
    rcases List.mem_cons.1 hw with h | h
    · exact h ▸ inv.visMin u hvu x hx hxv'
    · exact inv.visMin w h x hx hxv'

theorem dval_of_lookup {dist : List (Nat × Nat)} {x d : Nat}
    (h : alookup dist x = some d) : dval dist x = d := by
  unfold dval
  rw [h]
  rfl

theorem isSome_of_lookup {dist : List (Nat × Nat)} {x d : Nat}
    (h : alookup dist x = some d) : (alookup dist x).isSome = true := by
  rw [h]
  rfl

theorem pairwise_of_all {R : Nat → Nat → Prop} :
    ∀ (l : List Nat), (∀ a ∈ l, ∀ b ∈ l, R a b) → List.Pairwise R l := by
  intro l
  induction l with
  | nil => intro _; exact List.Pairwise.nil
  | cons a rest ih =>
    intro h
    exact List.Pairwise.cons
      (fun b hb => h a (List.mem_cons_self a rest) b (List.mem_cons_of_mem _ hb))
      (ih (fun b hb c hc => h b (List.mem_cons_of_mem _ hb) c (List.mem_cons_of_mem _ hc)))

theorem BfsInv.step_fresh (adj : Nat → List Nat) (s u : Nat) (rest visited : List Nat)
    (dist : List (Nat × Nat)) (inv : BfsInv adj s (u :: rest) visited dist)
    (hvu : u ∉ visited) :
    BfsInv adj s
      (rest ++ (bfsVisit (u :: visited) ((alookup dist u).getD 0) (adj u) dist []).2)
      (u :: visited)
      (bfsVisit (u :: visited) ((alookup dist u).getD 0) (adj u) dist []).1 := by
  obtain ⟨du, hdu⟩ := Option.isSome_iff_exists.1 (inv.queueKeys u (List.mem_cons_self u rest))
  have hgd : (alookup dist u).getD 0 = du := by rw [hdu]; rfl
  have hdval : dval dist u = du := dval_of_lookup hdu
  rw [hgd]
  have hb : ∀ w ∈ adj u, ∀ dw, alookup dist w = some dw → dw ≤ du + 1 := by
    intro w hw dw hdw
    by_cases hwv : w ∈ visited
    · have := inv.visMin w hwv u (isSome_of_lookup hdu) hvu
      rw [hdval, dval_of_lookup hdw] at this
      omega
    · have := inv.window w u (isSome_of_lookup hdw) hwv (isSome_of_lookup hdu) hvu
      rw [hdval, dval_of_lookup hdw] at this
      exact this
  obtain ⟨P1, P2a, P2b⟩ := bfsVisit_lookup (u :: visited) du (adj u) dist [] hb
  have hout : (bfsVisit (u :: visited) du (adj u) dist []).2 =
      (adj u).filter (fun w => !decide (w ∈ u :: visited)) := by
    rw [bfsVisit_acc]
    simp
  have hpres : ∀ x, (alookup dist x).isSome = true →
      alookup (bfsVisit (u :: visited) du (adj u) dist []).1 x = alookup dist x := by
    intro x hx
    obtain ⟨dx, hdx⟩ := Option.isSome_iff_exists.1 hx
    rw [hdx]
    exact P1 x dx hdx
  have hvalpres : ∀ x, (alookup dist x).isSome = true →
      dval (bfsVisit (u :: visited) du (adj u) dist []).1 x = dval dist x := by
    intro x hx
    unfold dval
    rw [hpres x hx]
  have hfreshChar : ∀ x d, alookup dist x = none →
      alookup (bfsVisit (u :: visited) du (adj u) dist []).1 x = some d →
      x ∈ adj u ∧ x ∉ u :: visited ∧ d = du + 1 := by
    intro x d hn hx
    by_cases hq : x ∈ adj u ∧ x ∉ u :: visited
    · have := P2a x hn hq.1 hq.2
      rw [this] at hx
      cases hx
      exact ⟨hq.1, hq.2, rfl⟩
    · have hq2 : x ∉ adj u ∨ x ∈ u :: visited := by
        by_cases h1 : x ∈ adj u
        · by_cases h2 : x ∈ u :: visited
          · exact Or.inr h2
          · exact absurd ⟨h1, h2⟩ hq
        · exact Or.inl h1
      rw [P2b x hn hq2] at hx
      cases hx
  have hLold : (u :: rest).filter (fun x => !decide (x ∈ visited)) =
      u :: rest.filter (fun x => !decide (x ∈ visited)) := by
    rw [List.filter_cons, if_pos (by simp [hvu])]
  have hsorted := inv.sorted
  rw [hLold, dedupF_cons] at hsorted
  have hheadMin : ∀ x, (alookup dist x).isSome = true → x ∉ visited →
      du ≤ dval dist x := by
    intro x hx hxv
    by_cases hxu : x = u
    · rw [hxu, hdval]
    · have hxq : x ∈ rest := by
        rcases inv.covered x hx with h | h
        · exact absurd h hxv
        · rcases List.mem_cons.1 h with h' | h'
          · exact absurd h' hxu
          · exact h'
      have hmem : x ∈ (dedupF (rest.filter (fun y => !decide (y ∈ visited)))).filter
          (fun y => !decide (y = u)) := by
        rw [List.mem_filter]
        refine ⟨(dedupF_mem _ x).2 ?_, by simp [hxu]⟩
        rw [List.mem_filter]
        exact ⟨hxq, by simp [hxv]⟩
      have := (List.pairwise_cons.1 hsorted).1 x hmem
      rw [hdval] at this
      exact this
  have hwind : ∀ x, (alookup dist x).isSome = true → x ∉ visited →
      dval dist x ≤ du + 1 := by
    intro x hx hxv
    have := inv.window x u hx hxv (isSome_of_lookup hdu) hvu
    rw [hdval] at this
    exact this
  have hfreshVal : ∀ x, (alookup (bfsVisit (u :: visited) du (adj u) dist []).1 x).isSome
      = true → ¬ (alookup dist x).isSome = true →
      dval (bfsVisit (u :: visited) du (adj u) dist []).1 x = du + 1 := by
    intro x hx hn
    have hn' : alookup dist x = none := Option.not_isSome_iff_eq_none.1 hn
    obtain ⟨d, hd⟩ := Option.isSome_iff_exists.1 hx
    obtain ⟨_, _, hdd⟩ := hfreshChar x d hn' hd
    rw [dval_of_lookup hd, hdd]
  constructor
  · intro x d hx
    by_cases hk : (alookup dist x).isSome = true
    · obtain ⟨dx, hdx⟩ := Option.isSome_iff_exists.1 hk
      have hxx : dx = d := by
        have h2 := P1 x dx hdx
        rw [h2] at hx
        exact Option.some.inj hx
      exact hxx ▸ inv.sound x dx hdx
    · have hn : alookup dist x = none := Option.not_isSome_iff_eq_none.1 hk
      obtain ⟨hmem, _, rfl⟩ := hfreshChar x d hn hx
      exact ⟨u, inv.sound u du hdu, hmem⟩
  · rw [P1 s 0 inv.src]
  · intro x hx
    rcases List.mem_append.1 hx with h | h
    · have hk := inv.queueKeys x (List.mem_cons_of_mem _ h)
      rw [hpres x hk]
      exact hk
    · rw [hout] at h
      rw [List.mem_filter] at h
      obtain ⟨h1, h2⟩ := h
      have h2' : x ∉ u :: visited := by simpa using h2
      by_cases hk : (alookup dist x).isSome = true
      · rw [hpres x hk]
        exact hk
      · have hn : alookup dist x = none := Option.not_isSome_iff_eq_none.1 hk
        rw [P2a x hn h1 h2']
        rfl
  · intro w hw
    rcases List.mem_cons.1 hw with h | h
    · subst h
      rw [hpres w (isSome_of_lookup hdu)]
      exact isSome_of_lookup hdu
    · have hk := inv.visKeys w h
      rw [hpres w hk]
      exact hk
  · intro w hw
    have hDu : dval (bfsVisit (u :: visited) du (adj u) dist []).1 u = du := by
      rw [hvalpres u (isSome_of_lookup hdu), hdval]
    rcases List.mem_cons.1 hw with h | h
    · subst h
      intro y hy
      by_cases hk : (alookup dist y).isSome = true
      · obtain ⟨dy, hdy⟩ := Option.isSome_iff_exists.1 hk
        refine ⟨dy, by rw [P1 y dy hdy], ?_⟩
        rw [hDu]
        exact hb y hy dy hdy
      · have hn : alookup dist y = none := Option.not_isSome_iff_eq_none.1 hk
        have hyv : y ∉ w :: visited := by
          intro hmem
          rcases List.mem_cons.1 hmem with h' | h'
          · rw [h'] at hn
            rw [hn] at hdu
            cases hdu
          · have := inv.visKeys y h'
            rw [hn] at this
            cases this
        refine ⟨du + 1, P2a y hn hy hyv, ?_⟩
        rw [hDu]
    · intro y hy
      obtain ⟨dy, hdy, hle⟩ := inv.closure w h y hy
      refine ⟨dy, by rw [P1 y dy hdy], ?_⟩
      rw [hvalpres w (inv.visKeys w h)]
      exact hle
  · intro x hx
    by_cases hk : (alookup dist x).isSome = true
    · rcases inv.covered x hk with h | h
      · exact Or.inl (List.mem_cons_of_mem _ h)
      · rcases List.mem_cons.1 h with h' | h'
        · exact Or.inl (h' ▸ List.mem_cons_self u visited)
        · exact Or.inr (List.mem_append_left _ h')
    · have hn : alookup dist x = none := Option.not_isSome_iff_eq_none.1 hk
      obtain ⟨d, hd⟩ := Option.isSome_iff_exists.1 hx
      obtain ⟨h1, h2, _⟩ := hfreshChar x d hn hd
      refine Or.inr (List.mem_append_right _ ?_)
      rw [hout, List.mem_filter]
      exact ⟨h1, by simp [h2]⟩
  · rw [List.filter_append]
    have hA : ((bfsVisit (u :: visited) du (adj u) dist []).2).filter
        (fun x => !decide (x ∈ u :: visited)) =
        (bfsVisit (u :: visited) du (adj u) dist []).2 := by
      rw [hout]
      apply filter_self_of_all
      intro a ha
      rw [List.mem_filter] at ha
      exact ha.2
    have hR : rest.filter (fun x => !decide (x ∈ u :: visited)) =
        (rest.filter (fun x => !decide (x ∈ visited))).filter
          (fun y => !decide (y = u)) := by
      rw [List.filter_filter]
      apply List.filter_congr
      intro y _
      by_cases h1 : y = u <;> by_cases h2 : y ∈ visited <;>
        simp [List.mem_cons, h1, h2]
    rw [hA, hR, dedupF_append, dedupF_filter]
    have htail : ∀ a ∈ (dedupF (rest.filter (fun x => !decide (x ∈ visited)))).filter
        (fun y => !decide (y = u)),
        (alookup dist a).isSome = true ∧ a ∉ visited ∧
          du ≤ dval dist a ∧ dval dist a ≤ du + 1 := by
      intro a ha
      rw [List.mem_filter] at ha
      have ha2 := (dedupF_mem _ a).1 ha.1
      rw [List.mem_filter] at ha2
      have hak : (alookup dist a).isSome = true :=
        inv.queueKeys a (List.mem_cons_of_mem _ ha2.1)
      have hav : a ∉ visited := by
        have := ha2.2
        simpa using this
      exact ⟨hak, hav, hheadMin a hak hav, hwind a hak hav⟩
    have hFD : ∀ w ∈ ((dedupF (bfsVisit (u :: visited) du (adj u) dist []).2).filter
        (fun y => !decide (y ∈ (rest.filter (fun x => !decide (x ∈ visited))).filter
          (fun y => !decide (y = u))))),
        dval (bfsVisit (u :: visited) du (adj u) dist []).1 w = du + 1 := by
      intro w hw
      rw [List.mem_filter] at hw
      obtain ⟨hw1, hw2⟩ := hw
      have hw3 := (dedupF_mem _ w).1 hw1
      rw [hout, List.mem_filter] at hw3
      obtain ⟨hw4, hw5⟩ := hw3
      have hw5' : w ∉ u :: visited := by simpa using hw5
      have hwn : alookup dist w = none := by
        by_cases hk : (alookup dist w).isSome = true
        · exfalso
          rcases inv.covered w hk with h | h
          · exact hw5' (List.mem_cons_of_mem _ h)
          · rcases List.mem_cons.1 h with h' | h'
            · exact hw5' (h' ▸ List.mem_cons_self u visited)
            · apply absurd hw2
              simp only [Bool.not_eq_eq_eq_not, Bool.not_true, decide_eq_false_iff_not]
              push_neg
              rw [List.mem_filter, List.mem_filter]
              have hwv : w ∉ visited := fun hh => hw5' (List.mem_cons_of_mem _ hh)
              have hwu : ¬ (w = u) := fun hh => hw5' (hh ▸ List.mem_cons_self u visited)
              exact ⟨⟨h', by simp [hwv]⟩, by simp [hwu]⟩
        · exact Option.not_isSome_iff_eq_none.1 hk
      exact dval_of_lookup (P2a w hwn hw4 hw5')
    rw [List.pairwise_append]
    refine ⟨?_, ?_, ?_⟩
    · have htailpw := (List.pairwise_cons.1 hsorted).2
      apply htailpw.imp_of_mem
      intro a b ha hb1 hab
      have h1 := htail a ha
      have h2 := htail b hb1
      rw [hvalpres a h1.1, hvalpres b h2.1]
      exact hab
    · apply pairwise_of_all
      intro a ha b hb1
      rw [hFD a ha, hFD b hb1]
    · intro a ha b hb1
      have h1 := htail a ha
      rw [hvalpres a h1.1, hFD b hb1]
      exact h1.2.2.2
  · intro a b ha hav1 hb1 hbv1
    have hav : a ∉ visited := fun h => hav1 (List.mem_cons_of_mem _ h)
    have hbv : b ∉ visited := fun h => hbv1 (List.mem_cons_of_mem _ h)
    by_cases hak : (alookup dist a).isSome = true
    · by_cases hbk : (alookup dist b).isSome = true
      · rw [hvalpres a hak, hvalpres b hbk]
        exact inv.window a b hak hav hbk hbv
      · rw [hvalpres a hak, hfreshVal b hb1 hbk]
        have := hwind a hak hav
        omega
    · rw [hfreshVal a ha hak]
      by_cases hbk : (alookup dist b).isSome = true
      · rw [hvalpres b hbk]
        have := hheadMin b hbk hbv
        omega
      · rw [hfreshVal b hb1 hbk]
        omega
  · intro w hw x hx hxv1
    have hxv : x ∉ visited := fun h => hxv1 (List.mem_cons_of_mem _ h)
    rcases List.mem_cons.1 hw with h | h
    · subst h
      rw [hvalpres w (isSome_of_lookup hdu), hdval]
      by_cases hxk : (alookup dist x).isSome = true
      · rw [hvalpres x hxk]
        exact hheadMin x hxk hxv
      · rw [hfreshVal x hx hxk]
        omega
    · rw [hvalpres w (inv.visKeys w h)]
      by_cases hxk : (alookup dist x).isSome = true
      · rw [hvalpres x hxk]
        exact inv.visMin w h x hxk hxv
      · rw [hfreshVal x hx hxk]
        have := inv.visMin w h u (isSome_of_lookup hdu) hvu
        rw [hdval] at this
        omega

theorem BfsInv.step (adj : Nat → List Nat) (s u : Nat) (rest visited : List Nat)
    (dist : List (Nat × Nat)) (inv : BfsInv adj s (u :: rest) visited dist) :
    BfsInv adj s
      (rest ++ (bfsVisit (u :: visited) ((alookup dist u).getD 0) (adj u) dist []).2)
      (u :: visited)
      (bfsVisit (u :: visited) ((alookup dist u).getD 0) (adj u) dist []).1 := by
  by_cases hvu : u ∈ visited
  · exact BfsInv.step_dup adj s u rest visited dist inv hvu
  · exact BfsInv.step_fresh adj s u rest visited dist inv hvu

theorem bfsLoop_inv (allNodes : List Nat) (adj : Nat → List Nat)
    (hadj : ∀ u, ∀ w ∈ adj u, w ∈ allNodes) (s : Nat)
    (queue visited : List Nat) (dist : List (Nat × Nat))
    (hinv : BfsInv adj s queue visited dist) :
    ∃ vis2, BfsInv adj s [] vis2 (bfsLoop allNodes adj hadj queue visited dist) := by
  revert hinv
  induction queue, visited, dist using bfsLoop.induct allNodes adj hadj with
  | case1 visited dist =>
    intro hinv
    rw [bfsLoop]
    exact ⟨visited, hinv⟩
  | case2 visited dist u rest ih =>
    intro hinv
    rw [bfsLoop]
    exact ih (BfsInv.step adj s u rest visited dist hinv)

theorem BfsInv.final (adj : Nat → List Nat) (s : Nat) (vis2 : List Nat)
    (dist : List (Nat × Nat)) (inv : BfsInv adj s [] vis2 dist) :
    (∀ x, (alookup dist x).isSome = true ↔ ∃ n, reach adj s n x) ∧
    (∀ x d, alookup dist x = some d → reach adj s d x ∧ ∀ m, reach adj s m x → d ≤ m) ∧
    alookup dist s = some 0 := by
  have keyUpper : ∀ m x, reach adj s m x → ∃ d, alookup dist x = some d ∧ d ≤ m := by
    intro m
    induction m with
    | zero =>
      intro x hx
      have hxs : x = s := hx
      subst hxs
      exact ⟨0, inv.src, le_refl 0⟩
    | succ n ih =>
      intro x hx
      obtain ⟨w, hw, hmem⟩ := hx
      obtain ⟨dw, hdw, hdwle⟩ := ih w hw
      have hwvis : w ∈ vis2 := by
        rcases inv.covered w (isSome_of_lookup hdw) with h | h
        · exact h
        · cases h
      obtain ⟨dy, hdy, hle⟩ := inv.closure w hwvis x hmem
      refine ⟨dy, hdy, ?_⟩
      rw [dval_of_lookup hdw] at hle
      omega
  refine ⟨?_, ?_, inv.src⟩
  · intro x
    constructor
    · intro hx
      obtain ⟨d, hd⟩ := Option.isSome_iff_exists.1 hx
      exact ⟨d, inv.sound x d hd⟩
    · rintro ⟨n, hn⟩
      obtain ⟨d, hd, _⟩ := keyUpper n x hn
      exact isSome_of_lookup hd
  · intro x d hd
    refine ⟨inv.sound x d hd, ?_⟩
    intro m hm
    obtain ⟨d2, hd2, hle⟩ := keyUpper m x hm
    rw [hd] at hd2
    have := Option.some.inj hd2
    omega

theorem bfs_correct (g : GraphSt) (hg : AdjClosed g) (v : Nat) :
    (∀ x, (alookup (breadth_first_search_distances g hg v) x).isSome = true ↔
        ∃ n, reach g.neighborsOf v n x) ∧
    (∀ x d, alookup (breadth_first_search_distances g hg v) x = some d →
        reach g.neighborsOf v d x ∧ ∀ m, reach g.neighborsOf v m x → d ≤ m) ∧
    alookup (breadth_first_search_distances g hg v) v = some 0 := by
  obtain ⟨vis2, hfin⟩ := bfsLoop_inv g.nodes g.neighborsOf (neighborsOf_closed g hg) v
    [v] [] [(v, 0)] (BfsInv.init g.neighborsOf v)
  exact BfsInv.final g.neighborsOf v vis2 _ hfin

/-! State-machine reachability through the public operations, and the
invariants of reachable states. -/

theorem alookup_append_left {α : Type} {m m2 : List (Nat × α)} {k : Nat} {x : α}
    (h : alookup m k = some x) : alookup (m ++ m2) k = some x := by
  induction m with
  | nil => simp [alookup] at h
  | cons p rest ih =>
    by_cases hp : p.1 = k
    · simp [alookup, hp] at h ⊢
      exact h
    · simp [alookup, hp] at h ⊢
      exact ih h

theorem alookup_append_right {α : Type} {m m2 : List (Nat × α)} {k : Nat}
    (h : alookup m k = none) : alookup (m ++ m2) k = alookup m2 k := by
  induction m with
  | nil => simp
  | cons p rest ih =>
    by_cases hp : p.1 = k
    · simp [alookup, hp] at h
    · simp [alookup, hp] at h ⊢
      exact ih h

theorem alookup_dictDel_ne {α : Type} (m : List (Nat × α)) (k j : Nat)
    (h : j ≠ k) : alookup (dictDel m k) j = alookup m j := by
  induction m with
  | nil => simp [dictDel]
  | cons p rest ih =>
    by_cases hp : p.1 = k
    · have hpj : ¬ p.1 = j := by rw [hp]; exact fun hh => h hh.symm
      rw [show dictDel (p :: rest) k = (p :: rest).filter (fun q => !decide (q.1 = k)) from rfl,
        List.filter_cons, if_neg (by simp [hp])]
      rw [show List.filter (fun q : Nat × α => !decide (q.1 = k)) rest = dictDel rest k from rfl,
        ih]
      simp [alookup, hpj]
    · rw [show dictDel (p :: rest) k = (p :: rest).filter (fun q => !decide (q.1 = k)) from rfl,
        List.filter_cons, if_pos (by simp [hp])]
      by_cases hpj : p.1 = j
      · simp [alookup, hpj]
      · simp only [alookup, hpj, if_false]
        rw [show List.filter (fun q : Nat × α => !decide (q.1 = k)) rest = dictDel rest k from rfl,
          ih]

theorem alookup_dictDel_self {α : Type} (m : List (Nat × α)) (k : Nat) :
    alookup (dictDel m k) k = none := by
  induction m with
  | nil => simp [dictDel, alookup]
  | cons p rest ih =>
    by_cases hp : p.1 = k
    · rw [show dictDel (p :: rest) k = (p :: rest).filter (fun q => !decide (q.1 = k)) from rfl,
        List.filter_cons, if_neg (by simp [hp])]
      exact ih
    · rw [show dictDel (p :: rest) k = (p :: rest).filter (fun q => !decide (q.1 = k)) from rfl,
        List.filter_cons, if_pos (by simp [hp])]
      simp only [alookup, hp, if_false]
      exact ih

theorem updAssoc_lookup_self {α : Type} (m : List (Nat × α)) (k : Nat) (f : α → α)
    {st : α} (h : alookup m k = some st) :
    alookup (updAssoc m k f) k = some (f st) := by
  induction m with
  | nil => simp [alookup] at h
  | cons p rest ih =>
    by_cases hp : p.1 = k
    · simp [alookup, hp] at h
      simp [updAssoc, hp, alookup, h]
    · simp [alookup, hp] at h
      simp [updAssoc, hp, alookup, ih h]

theorem updAssoc_lookup_ne {α : Type} (m : List (Nat × α)) (k j : Nat) (f : α → α)
    (h : j ≠ k) : alookup (updAssoc m k f) j = alookup m j := by
  have hkj : ¬ (k = j) := fun hh => h hh.symm
  induction m with
  | nil => simp [updAssoc]
  | cons p rest ih =>
    by_cases hp : p.1 = k
    · have hpj : ¬ p.1 = j := by rw [hp]; exact fun hh => h hh.symm
      simp [updAssoc, hp, alookup, hpj, hkj]
    · by_cases hpj : p.1 = j
      · simp [updAssoc, hp, alookup, hpj, h]
      · simp [updAssoc, hp, alookup, hpj, ih]

theorem updAssoc_keys {α : Type} (m : List (Nat × α)) (k : Nat) (f : α → α) :
    (updAssoc m k f).map Prod.fst = m.map Prod.fst := by
  induction m with
  | nil => simp [updAssoc]
  | cons p rest ih =>
    by_cases hp : p.1 = k
    · simp [updAssoc, hp]
    · simp [updAssoc, hp, ih]

theorem updAssoc_mem {α : Type} (m : List (Nat × α)) (k : Nat) (f : α → α)
    (q : Nat × α) (h : q ∈ updAssoc m k f) :
    q ∈ m ∨ ∃ st, alookup m k = some st ∧ q = (k, f st) := by
  induction m with
  | nil => simp [updAssoc] at h
  | cons p rest ih =>
    by_cases hp : p.1 = k
    · rw [updAssoc] at h
      rw [if_pos hp] at h
      rcases List.mem_cons.1 h with h1 | h1
      · refine Or.inr ⟨p.2, ?_, ?_⟩
        · simp [alookup, hp]
        · rw [h1, hp]
      · exact Or.inl (List.mem_cons_of_mem _ h1)
    · rw [updAssoc] at h
      rw [if_neg hp] at h
      rcases List.mem_cons.1 h with h1 | h1
      · exact Or.inl (h1 ▸ List.mem_cons_self p rest)
      · rcases ih h1 with h2 | ⟨st, h2, h3⟩
        · exact Or.inl (List.mem_cons_of_mem _ h2)
        · refine Or.inr ⟨st, ?_, h3⟩
          simp [alookup, hp, h2]

theorem dictSet_keys_of_mem {α : Type} (m : List (Nat × α)) (k : Nat) (x : α)
    (h : (alookup m k).isSome = true) :
    (dictSet m k x).map Prod.fst = m.map Prod.fst := by
  induction m with
  | nil => simp [alookup] at h
  | cons p rest ih =>
    by_cases hp : p.1 = k
    · simp [dictSet, hp]
    · simp [alookup, hp] at h
      simp [dictSet, hp, ih h]

theorem dictSet_mem {α : Type} (m : List (Nat × α)) (k : Nat) (x : α)
    (q : Nat × α) (h : q ∈ dictSet m k x) : q ∈ m ∨ q = (k, x) := by
  induction m with
  | nil => simpa [dictSet] using h
  | cons p rest ih =>
    by_cases hp : p.1 = k
    · rw [dictSet, if_pos hp] at h
      rcases List.mem_cons.1 h with h1 | h1
      · exact Or.inr h1
      · exact Or.inl (List.mem_cons_of_mem _ h1)
    · rw [dictSet, if_neg hp] at h
      rcases List.mem_cons.1 h with h1 | h1
      · exact Or.inl (h1 ▸ List.mem_cons_self p rest)
      · rcases ih h1 with h2 | h2
        · exact Or.inl (List.mem_cons_of_mem _ h2)
        · exact Or.inr h2

theorem dictDel_subset {α : Type} (m : List (Nat × α)) (k : Nat)
    (q : Nat × α) (h : q ∈ dictDel m k) : q ∈ m ∧ q.1 ≠ k := by
  rw [dictDel, List.mem_filter] at h
  refine ⟨h.1, ?_⟩
  have := h.2
  simpa using this

/-- States produced by any sequence of the public mutation operations
`add_node`, `remove_node`, `add_edge`/`add_arc` (`_add_link`) and
`remove_edge`/`remove_arc` (`_remove_link`), starting from a fresh
graph; failed calls leave behind whatever state the operation reached. -/
inductive Reachable : GraphSt → Prop where
  | empty (b : Bool) : Reachable (GraphSt.empty b)
  | addN {g : GraphSt} : Reachable g → Reachable g.add_node.2.1
  | remN {g : GraphSt} (v : Entity) : Reachable g → Reachable (g.remove_node v).2.1
  | addL {g : GraphSt} (u v : Entity) : Reachable g → Reachable (g.add_link u v).2.1
  | remL {g : GraphSt} (l : Entity) : Reachable g → Reachable (g.remove_link l).2.1

/-- Bookkeeping facts of every reachable state: node indices are unique,
below the counter, and every listed node has a node object. -/
def HK (g : GraphSt) : Prop :=
  g.nodes.Nodup ∧ (∀ i ∈ g.nodes, i < g.nextIdx) ∧
  (g.nodeSt.map Prod.fst).Nodup ∧ (∀ p ∈ g.nodeSt, p.1 < g.nextIdx) ∧
  (∀ i ∈ g.nodes, (alookup g.nodeSt i).isSome = true)

/-- The edge recorded in `i.__edges[j]`. -/
def edgeLookup (g : GraphSt) (i j : Nat) : Option Link :=
  match g.stOf i with
  | some st => alookup st.edges j
  | none => none

/-- Two links joining the same unordered pair of nodes. -/
def sameUnordered (l1 l2 : Link) : Prop :=
  (l1.u = l2.u ∧ l1.v = l2.v) ∨ (l1.u = l2.v ∧ l1.v = l2.u)

/-- Core invariant of undirected states: no self-loop, at most one edge
per unordered pair, adjacency maps and the link list mirror each
other. -/
def UCore (g : GraphSt) : Prop :=
  (∀ l ∈ g.links, l.u ≠ l.v) ∧
  List.Pairwise (fun l1 l2 => ¬ sameUnordered l1 l2) g.links ∧
  (∀ l ∈ g.links, edgeLookup g l.u l.v = some l ∧ edgeLookup g l.v l.u = some l) ∧
  (∀ p ∈ g.nodeSt, ∀ q ∈ p.2.edges,
    q.2 ∈ g.links ∧ ((q.2.u = p.1 ∧ q.2.v = q.1) ∨ (q.2.u = q.1 ∧ q.2.v = p.1)))

/-- Core invariant of directed states: since `Arc(self, u, v)` always
raises `TypeError`, no arc is ever created and no adjacency entry is
ever written. -/
def DCore (g : GraphSt) : Prop :=
  g.links = [] ∧ ∀ p ∈ g.nodeSt, p.2 = NodeSt.empty

/-- Invariant of every reachable state. -/
def GInv (g : GraphSt) : Prop :=
  HK g ∧ (g.directed = true → DCore g) ∧ (g.directed = false → UCore g)

theorem add_link_error (g : GraphSt) (u v : Entity) (e : PyErr)
    (h : (g.add_link u v).1 = Except.error e) :
    (g.add_link u v).2.1 = g ∧ (g.add_link u v).2.2 = [] := by
  by_cases h1 : g.containsEnt u = true
  · by_cases h2 : g.containsEnt v = true
    · by_cases h3 : u = v
      · simp [GraphSt.add_link, h1, h2, h3]
      · cases u with
        | node i =>
          cases hd : g.directed
          · cases v with
            | node j =>
              cases hlk : alookup ((g.stOf i).getD NodeSt.empty).edges j with
              | some a => simp [GraphSt.add_link, h1, h2, h3, hd, hlk]
              | none =>
                exfalso
                simp [GraphSt.add_link, h1, h2, h3, hd, hlk] at h
            | link l => simp [GraphSt.add_link, h1, h2, h3, hd]
            | other => simp [GraphSt.add_link, h1, h2, h3, hd]
          · cases v with
            | node j =>
              cases hlk : alookup ((g.stOf i).getD NodeSt.empty).outputArcs j with
              | some a => simp [GraphSt.add_link, h1, h2, h3, hd, hlk]
              | none => simp [GraphSt.add_link, h1, h2, h3, hd, hlk]
            | link l => simp [GraphSt.add_link, h1, h2, h3, hd]
            | other => simp [GraphSt.add_link, h1, h2, h3, hd]
        | link l => simp [GraphSt.add_link, h1, h2, h3]
        | other => simp [GraphSt.add_link, h1, h2, h3]
    · cases v <;> simp [GraphSt.add_link, h1, h2]
  · cases u <;> simp [GraphSt.add_link, h1]

theorem add_link_directed (g : GraphSt) (u v : Entity) (hd : g.directed = true) :
    (g.add_link u v).2.1 = g ∧ (g.add_link u v).2.2 = [] ∧
      ∃ e, (g.add_link u v).1 = Except.error e := by
  by_cases h1 : g.containsEnt u = true
  · by_cases h2 : g.containsEnt v = true
    · by_cases h3 : u = v
      · simp [GraphSt.add_link, h1, h2, h3]
      · cases u with
        | node i =>
          cases v with
          | node j =>
            cases hlk : alookup ((g.stOf i).getD NodeSt.empty).outputArcs j with
            | some a => simp [GraphSt.add_link, h1, h2, h3, hd, hlk]
            | none => simp [GraphSt.add_link, h1, h2, h3, hd, hlk]
          | link l => simp [GraphSt.add_link, h1, h2, h3, hd]
          | other => simp [GraphSt.add_link, h1, h2, h3, hd]
        | link l => simp [GraphSt.add_link, h1, h2, h3]
        | other => simp [GraphSt.add_link, h1, h2, h3]
    · cases v <;> simp [GraphSt.add_link, h1, h2]
  · cases u <;> simp [GraphSt.add_link, h1]

theorem add_link_ok_cases (g : GraphSt) (u v : Entity) (lk : Link)
    (h : (g.add_link u v).1 = Except.ok lk) :
    ∃ i j, u = Entity.node i ∧ v = Entity.node j ∧ g.directed = false ∧
      i ∈ g.nodes ∧ j ∈ g.nodes ∧ i ≠ j ∧
      alookup ((g.stOf i).getD NodeSt.empty).edges j = none ∧
      lk = ⟨i, j⟩ ∧
      (g.add_link u v).2.1 =
        ⟨g.directed, g.nodes, g.links ++ [⟨i, j⟩],
          updAssoc (updAssoc g.nodeSt i (fun st => st.addIncidentEdge i ⟨i, j⟩)) j
            (fun st => st.addIncidentEdge j ⟨i, j⟩), g.nextIdx⟩ := by
  by_cases h1 : g.containsEnt u = true
  · by_cases h2 : g.containsEnt v = true
    · by_cases h3 : u = v
      · exfalso; simp [GraphSt.add_link, h1, h2, h3] at h
      · cases u with
        | node i =>
          cases hd : g.directed
          · cases v with
            | node j =>
              cases hlk : alookup ((g.stOf i).getD NodeSt.empty).edges j with
              | some a => exfalso; simp [GraphSt.add_link, h1, h2, h3, hd, hlk] at h
              | none =>
                refine ⟨i, j, rfl, rfl, rfl, ?_, ?_, ?_, hlk, ?_, ?_⟩
                · have := h1
                  simp [GraphSt.containsEnt, hd] at this
                  exact this
                · have := h2
                  simp [GraphSt.containsEnt, hd] at this
                  exact this
                · intro hij
                  exact h3 (by rw [hij])
                · have := h
                  simp [GraphSt.add_link, h1, h2, h3, hd, hlk] at this
                  exact this.symm
                · simp [GraphSt.add_link, h1, h2, h3, hd, hlk, GraphSt.updNode]
            | link l => exfalso; simp [GraphSt.add_link, h1, h2, h3, hd] at h
            | other => exfalso; simp [GraphSt.add_link, h1, h2, h3, hd] at h
          · cases v with
            | node j =>
              cases hlk : alookup ((g.stOf i).getD NodeSt.empty).outputArcs j with
              | some a => exfalso; simp [GraphSt.add_link, h1, h2, h3, hd, hlk] at h
              | none => exfalso; simp [GraphSt.add_link, h1, h2, h3, hd, hlk] at h
            | link l => exfalso; simp [GraphSt.add_link, h1, h2, h3, hd] at h
            | other => exfalso; simp [GraphSt.add_link, h1, h2, h3, hd] at h
        | link l => exfalso; simp [GraphSt.add_link, h1, h2, h3] at h
        | other => exfalso; simp [GraphSt.add_link, h1, h2, h3] at h
    · exfalso
      cases v <;> simp [GraphSt.add_link, h1, h2] at h
  · exfalso
    cases u <;> simp [GraphSt.add_link, h1] at h

theorem key_mem_of_lookup {α : Type} {m : List (Nat × α)} {k : Nat} {x : α}
    (h : alookup m k = some x) : k ∈ m.map Prod.fst := by
  have := alookup_mem h
  exact List.mem_map.2 ⟨(k, x), this, rfl⟩

theorem lookup_none_of_bound {α : Type} {m : List (Nat × α)} {n : Nat}
    (h : ∀ p ∈ m, p.1 < n) : alookup m n = none := by
  cases hl : alookup m n with
  | none => rfl
  | some x =>
    have := h _ (alookup_mem hl)
    omega

theorem updAssoc_missing {α : Type} (m : List (Nat × α)) (k : Nat) (f : α → α)
    (h : alookup m k = none) : updAssoc m k f = m := by
  induction m with
  | nil => simp [updAssoc]
  | cons p rest ih =>
    by_cases hp : p.1 = k
    · simp [alookup, hp] at h
    · simp [alookup, hp] at h
      simp [updAssoc, hp, ih h]

theorem dictSet_mem_strong {α : Type} (m : List (Nat × α)) (k : Nat) (x : α)
    (hnd : (m.map Prod.fst).Nodup) (q : Nat × α) (h : q ∈ dictSet m k x) :
    (q ∈ m ∧ q.1 ≠ k) ∨ q = (k, x) := by
  induction m with
  | nil =>
    rw [dictSet] at h
    rcases List.mem_singleton.1 h with rfl
    exact Or.inr rfl
  | cons p rest ih =>
    rw [List.map_cons, List.nodup_cons] at hnd
    by_cases hp : p.1 = k
    · rw [dictSet, if_pos hp] at h
      rcases List.mem_cons.1 h with h1 | h1
      · exact Or.inr h1
      · have hq : q.1 ≠ k := by
          intro hqk
          have hmm : q.1 ∈ List.map Prod.fst rest := List.mem_map.2 ⟨q, h1, rfl⟩
          rw [hqk, ← hp] at hmm
          exact hnd.1 hmm
        exact Or.inl ⟨List.mem_cons_of_mem _ h1, hq⟩
    · rw [dictSet, if_neg hp] at h
      rcases List.mem_cons.1 h with h1 | h1
      · exact Or.inl ⟨h1 ▸ List.mem_cons_self p rest, by rw [h1]; exact hp⟩
      · rcases ih hnd.2 h1 with ⟨h2, h3⟩ | h2
        · exact Or.inl ⟨List.mem_cons_of_mem _ h2, h3⟩
        · exact Or.inr h2

theorem nodup_links_of_pairwise {links : List Link}
    (h : List.Pairwise (fun l1 l2 => ¬ sameUnordered l1 l2) links) : links.Nodup := by
  apply h.imp
  intro a b hab heq
  exact hab (heq ▸ Or.inl ⟨rfl, rfl⟩)

theorem GInv.addN (g : GraphSt) (hg : GInv g) : GInv g.add_node.2.1 := by
  obtain ⟨⟨hk1, hk2, hk3, hk4, hk5⟩, hgd, hgu⟩ := hg
  have hfresh : alookup g.nodeSt g.nextIdx = none := lookup_none_of_bound hk4
  have hEq : g.add_node.2.1 =
      ⟨g.directed, g.nodes ++ [g.nextIdx], g.links,
        g.nodeSt ++ [(g.nextIdx, NodeSt.empty)], g.nextIdx + 1⟩ := rfl
  rw [hEq]
  refine ⟨⟨?_, ?_, ?_, ?_, ?_⟩, ?_, ?_⟩
  · refine hk1.append (List.nodup_singleton _) ?_
    intro a ha hb
    rw [List.mem_singleton] at hb
    subst hb
    have := hk2 _ ha
    omega
  · intro i hi
    dsimp only at hi ⊢
    rcases List.mem_append.1 hi with h | h
    · have := hk2 i h
      omega
    · rw [List.mem_singleton] at h
      subst h
      omega
  · dsimp only
    rw [List.map_append, List.map_cons, List.map_nil]
    refine hk3.append (List.nodup_singleton _) ?_
    intro a ha hb
    rw [List.mem_singleton] at hb
    subst hb
    rw [List.mem_map] at ha
    obtain ⟨p, hp, hpe⟩ := ha
    have := hk4 p hp
    dsimp only at hpe
    omega
  · intro p hp
    dsimp only at hp ⊢
    rcases List.mem_append.1 hp with h | h
    · have := hk4 p h
      omega
    · rw [List.mem_singleton] at h
      subst h
      dsimp only
      omega
  · intro i hi
    rcases List.mem_append.1 hi with h | h
    · obtain ⟨st, hst⟩ := Option.isSome_iff_exists.1 (hk5 i h)
      rw [alookup_append_left hst]
      rfl
    · rcases List.mem_singleton.1 h with rfl
      rw [alookup_append_right hfresh]
      simp [alookup]
  · intro hd
    obtain ⟨hd1, hd2⟩ := hgd hd
    refine ⟨hd1, ?_⟩
    intro p hp
    rcases List.mem_append.1 hp with h | h
    · exact hd2 p h
    · rcases List.mem_singleton.1 h with rfl
      rfl
  · intro hd
    obtain ⟨hu1, hu2, hu3, hu4⟩ := hgu hd
    refine ⟨hu1, hu2, ?_, ?_⟩
    · intro l hl
      obtain ⟨hc1, hc2⟩ := hu3 l hl
      constructor
      · unfold edgeLookup GraphSt.stOf at hc1 ⊢
        cases hst : alookup g.nodeSt l.u with
        | none => rw [hst] at hc1; cases hc1
        | some st =>
          rw [hst] at hc1
          rw [alookup_append_left hst]
          exact hc1
      · unfold edgeLookup GraphSt.stOf at hc2 ⊢
        cases hst : alookup g.nodeSt l.v with
        | none => rw [hst] at hc2; cases hc2
        | some st =>
          rw [hst] at hc2
          rw [alookup_append_left hst]
          exact hc2
    · intro p hp q hq
      rcases List.mem_append.1 hp with h | h
      · exact hu4 p h q hq
      · rcases List.mem_singleton.1 h with rfl
        simp [NodeSt.empty] at hq

theorem GInv.remN (g : GraphSt) (v : Entity) (hg : GInv g) :
    GInv (g.remove_node v).2.1 := by
  cases v with
  | node i =>
    by_cases hi : i ∈ g.nodes
    · rw [GraphSt.remove_node]
      simp only [hi, if_true]
      obtain ⟨⟨hk1, hk2, hk3, hk4, hk5⟩, hgd, hgu⟩ := hg
      refine ⟨⟨hk1.erase i, ?_, hk3, hk4, ?_⟩, hgd, hgu⟩
      · intro x hx
        exact hk2 x (List.mem_of_mem_erase hx)
      · intro x hx
        exact hk5 x (List.mem_of_mem_erase hx)
    · rw [GraphSt.remove_node]
      simp only [hi, if_false]
      exact hg
  | link l => exact hg
  | other => exact hg

theorem GInv.addL (g : GraphSt) (u v : Entity) (hg : GInv g) :
    GInv (g.add_link u v).2.1 := by
  cases hres : (g.add_link u v).1 with
  | error e =>
    rw [(add_link_error g u v e hres).1]
    exact hg
  | ok lk =>
    obtain ⟨i, j, hu, hv, hd, hiN, hjN, hij, hnb, hlke, hstate⟩ :=
      add_link_ok_cases g u v lk hres
    rw [hstate]
    obtain ⟨⟨hk1, hk2, hk3, hk4, hk5⟩, hgd, hgu⟩ := hg
    obtain ⟨hu1, hu2, hu3, hu4⟩ := hgu hd
    obtain ⟨st_i, hsti⟩ := Option.isSome_iff_exists.1 (hk5 i hiN)
    obtain ⟨st_j, hstj⟩ := Option.isSome_iff_exists.1 (hk5 j hjN)
    have hnbi : alookup st_i.edges j = none := by
      have h2 := hnb
      unfold GraphSt.stOf at h2
      rw [hsti] at h2
      exact h2
    have hnbj : alookup st_j.edges i = none := by
      cases hl2 : alookup st_j.edges i with
      | none => rfl
      | some l2 =>
        exfalso
        have hd4 := hu4 (j, st_j) (alookup_mem hstj) (i, l2) (alookup_mem hl2)
        obtain ⟨hl2m, hpair⟩ := hd4
        rcases hpair with ⟨ha, hb⟩ | ⟨ha, hb⟩
        · have h3 := (hu3 l2 hl2m).2
          rw [ha, hb] at h3
          unfold edgeLookup GraphSt.stOf at h3
          rw [hsti] at h3
          dsimp only at h3
          rw [h3] at hnbi
          cases hnbi
        · have h3 := (hu3 l2 hl2m).1
          rw [ha, hb] at h3
          unfold edgeLookup GraphSt.stOf at h3
          rw [hsti] at h3
          dsimp only at h3
          rw [h3] at hnbi
          cases hnbi
    have haie : st_i.addIncidentEdge i ⟨i, j⟩ =
        { st_i with edges := st_i.edges ++ [(j, ⟨i, j⟩)] } := by
      simp [NodeSt.addIncidentEdge]
    have haje : st_j.addIncidentEdge j ⟨i, j⟩ =
        { st_j with edges := st_j.edges ++ [(i, ⟨i, j⟩)] } := by
      simp [NodeSt.addIncidentEdge, Ne.symm hij]
    have hNSi : alookup (updAssoc (updAssoc g.nodeSt i
        (fun st => st.addIncidentEdge i ⟨i, j⟩)) j
        (fun st => st.addIncidentEdge j ⟨i, j⟩)) i =
        some { st_i with edges := st_i.edges ++ [(j, ⟨i, j⟩)] } := by
      rw [updAssoc_lookup_ne _ j i _ hij, updAssoc_lookup_self _ i _ hsti, haie]
    have hNSj : alookup (updAssoc (updAssoc g.nodeSt i
        (fun st => st.addIncidentEdge i ⟨i, j⟩)) j
        (fun st => st.addIncidentEdge j ⟨i, j⟩)) j =
        some { st_j with edges := st_j.edges ++ [(i, ⟨i, j⟩)] } := by
      have hinner : alookup (updAssoc g.nodeSt i
          (fun st => st.addIncidentEdge i ⟨i, j⟩)) j = some st_j := by
        rw [updAssoc_lookup_ne _ i j _ (Ne.symm hij)]
        exact hstj
      rw [updAssoc_lookup_self _ j _ hinner, haje]
    have hNSother : ∀ x, x ≠ i → x ≠ j →
        alookup (updAssoc (updAssoc g.nodeSt i
          (fun st => st.addIncidentEdge i ⟨i, j⟩)) j
          (fun st => st.addIncidentEdge j ⟨i, j⟩)) x = alookup g.nodeSt x := by
      intro x hxi hxj
      rw [updAssoc_lookup_ne _ j x _ hxj, updAssoc_lookup_ne _ i x _ hxi]
    have hNSmem : ∀ p, p ∈ updAssoc (updAssoc g.nodeSt i
        (fun st => st.addIncidentEdge i ⟨i, j⟩)) j
        (fun st => st.addIncidentEdge j ⟨i, j⟩) →
        p ∈ g.nodeSt ∨ p = (i, { st_i with edges := st_i.edges ++ [(j, ⟨i, j⟩)] }) ∨
          p = (j, { st_j with edges := st_j.edges ++ [(i, ⟨i, j⟩)] }) := by
      intro p hp
      rcases updAssoc_mem _ _ _ _ hp with h1 | ⟨st, h1, h2⟩
      · rcases updAssoc_mem _ _ _ _ h1 with h2 | ⟨st, h2, h3⟩
        · exact Or.inl h2
        · rw [hsti] at h2
          have := Option.some.inj h2
          rw [h3, ← this, haie]
          exact Or.inr (Or.inl rfl)
      · rw [updAssoc_lookup_ne _ i j _ (Ne.symm hij), hstj] at h1
        have := Option.some.inj h1
        rw [h2, ← this, haje]
        exact Or.inr (Or.inr rfl)
    refine ⟨⟨hk1, hk2, ?_, ?_, ?_⟩, ?_, ?_⟩
    · dsimp only
      rw [updAssoc_keys, updAssoc_keys]
      exact hk3
    · intro p hp
      dsimp only at hp ⊢
      rcases hNSmem p hp with h1 | h1 | h1
      · exact hk4 p h1
      · rw [h1]
        exact hk4 (i, st_i) (alookup_mem hsti)
      · rw [h1]
        exact hk4 (j, st_j) (alookup_mem hstj)
    · intro x hx
      dsimp only at hx ⊢
      by_cases hxi : x = i
      · rw [hxi, hNSi]
        rfl
      · by_cases hxj : x = j
        · rw [hxj, hNSj]
          rfl
        · rw [hNSother x hxi hxj]
          exact hk5 x hx
    · intro hdd
      dsimp only at hdd
      rw [hd] at hdd
      cases hdd
    · intro _
      refine ⟨?_, ?_, ?_, ?_⟩
      · intro l hl
        dsimp only at hl
        rcases List.mem_append.1 hl with h | h
        · exact hu1 l h
        · rcases List.mem_singleton.1 h with rfl
          exact hij
      · dsimp only
        rw [List.pairwise_append]
        refine ⟨hu2, List.pairwise_singleton _ _, ?_⟩
        intro l hl l2 hl2
        rcases List.mem_singleton.1 hl2 with rfl
        intro hsame
        rcases hsame with ⟨ha, hb⟩ | ⟨ha, hb⟩
        · have h3 := (hu3 l hl).1
          rw [ha, hb] at h3
          unfold edgeLookup GraphSt.stOf at h3
          rw [hsti] at h3
          dsimp only at h3
          rw [h3] at hnbi
          cases hnbi
        · have h3 := (hu3 l hl).2
          rw [hb, ha] at h3
          unfold edgeLookup GraphSt.stOf at h3
          rw [hsti] at h3
          dsimp only at h3
          rw [h3] at hnbi
          cases hnbi
      · intro l hl
        dsimp only at hl ⊢
        have hpres : ∀ a b, edgeLookup g a b = some l →
            edgeLookup ⟨g.directed, g.nodes, g.links ++ [⟨i, j⟩],
              updAssoc (updAssoc g.nodeSt i
                (fun st => st.addIncidentEdge i ⟨i, j⟩)) j
                (fun st => st.addIncidentEdge j ⟨i, j⟩), g.nextIdx⟩ a b = some l := by
          intro a b hab
          unfold edgeLookup GraphSt.stOf at hab ⊢
          dsimp only
          by_cases hai : a = i
          · rw [hai] at hab ⊢
            rw [hsti] at hab
            dsimp only at hab
            rw [hNSi]
            dsimp only
            exact alookup_append_left hab
          · by_cases haj : a = j
            · rw [haj] at hab ⊢
              rw [hstj] at hab
              dsimp only at hab
              rw [hNSj]
              dsimp only
              exact alookup_append_left hab
            · rw [hNSother a hai haj]
              exact hab
        rcases List.mem_append.1 hl with h | h
        · obtain ⟨hc1, hc2⟩ := hu3 l h
          exact ⟨hpres l.u l.v hc1, hpres l.v l.u hc2⟩
        · rcases List.mem_singleton.1 h with rfl
          constructor
          · unfold edgeLookup GraphSt.stOf
            dsimp only
            rw [hNSi]
            dsimp only
            rw [alookup_append_right hnbi]
            simp [alookup]
          · unfold edgeLookup GraphSt.stOf
            dsimp only
            rw [hNSj]
            dsimp only
            rw [alookup_append_right hnbj]
            simp [alookup]
      · intro p hp q hq
        dsimp only at hp ⊢
        rcases hNSmem p hp with h1 | h1 | h1
        · obtain ⟨hq1, hq2⟩ := hu4 p h1 q hq
          exact ⟨List.mem_append_left _ hq1, hq2⟩
        · rw [h1] at hq ⊢
          dsimp only at hq ⊢
          rcases List.mem_append.1 hq with h2 | h2
          · obtain ⟨hq1, hq2⟩ := hu4 (i, st_i) (alookup_mem hsti) q h2
            exact ⟨List.mem_append_left _ hq1, hq2⟩
          · rcases List.mem_singleton.1 h2 with rfl
            refine ⟨List.mem_append_right _ (List.mem_singleton_self _), ?_⟩
            exact Or.inl ⟨rfl, rfl⟩
        · rw [h1] at hq ⊢
          dsimp only at hq ⊢
          rcases List.mem_append.1 hq with h2 | h2
          · obtain ⟨hq1, hq2⟩ := hu4 (j, st_j) (alookup_mem hstj) q h2
            exact ⟨List.mem_append_left _ hq1, hq2⟩
          · rcases List.mem_singleton.1 h2 with rfl
            refine ⟨List.mem_append_right _ (List.mem_singleton_self _), ?_⟩
            exact Or.inr ⟨rfl, rfl⟩

theorem GInv.remL (g : GraphSt) (l : Entity) (hg : GInv g) :
    GInv (g.remove_link l).2.1 := by
  cases l with
  | node i => exact hg
  | other => exact hg
  | link lk =>
    by_cases hmem : lk ∈ g.links
    · cases hd : g.directed
      · obtain ⟨⟨hk1, hk2, hk3, hk4, hk5⟩, hgd, hgu⟩ := hg
        obtain ⟨hu1, hu2, hu3, hu4⟩ := hgu hd
        have hne : lk.u ≠ lk.v := hu1 lk hmem
        have hc := hu3 lk hmem
        obtain ⟨st_u, hstu, hluv⟩ : ∃ st, alookup g.nodeSt lk.u = some st ∧
            alookup st.edges lk.v = some lk := by
          have h1 := hc.1
          unfold edgeLookup GraphSt.stOf at h1
          cases hst : alookup g.nodeSt lk.u with
          | none => rw [hst] at h1; cases h1
          | some st =>
            rw [hst] at h1
            dsimp only at h1
            exact ⟨st, rfl, h1⟩
        obtain ⟨st_v, hstv, hlvu⟩ : ∃ st, alookup g.nodeSt lk.v = some st ∧
            alookup st.edges lk.u = some lk := by
          have h1 := hc.2
          unfold edgeLookup GraphSt.stOf at h1
          cases hst : alookup g.nodeSt lk.v with
          | none => rw [hst] at h1; cases h1
          | some st =>
            rw [hst] at h1
            dsimp only at h1
            exact ⟨st, rfl, h1⟩
        have hrem1 : st_u.removeIncidentEdge lk.u lk =
            Except.ok { st_u with edges := dictDel st_u.edges lk.v } := by
          unfold NodeSt.removeIncidentEdge
          rw [if_pos rfl]
          dsimp only
          have hdm : dictMem st_u.edges lk.v = true := by
            rw [dictMem, hluv]
            rfl
          rw [hdm]
          simp
        have hrem2 : st_v.removeIncidentEdge lk.v lk =
            Except.ok { st_v with edges := dictDel st_v.edges lk.u } := by
          unfold NodeSt.removeIncidentEdge
          rw [if_neg (Ne.symm hne), if_pos rfl]
          dsimp only
          have hdm : dictMem st_v.edges lk.u = true := by
            rw [dictMem, hlvu]
            rfl
          rw [hdm]
          simp
        have hstate : (g.remove_link (Entity.link lk)).2.1 =
            ⟨g.directed, g.nodes, g.links.erase lk,
              dictSet (dictSet g.nodeSt lk.u { st_u with edges := dictDel st_u.edges lk.v })
                lk.v { st_v with edges := dictDel st_v.edges lk.u }, g.nextIdx⟩ := by
          unfold GraphSt.remove_link GraphSt.remove_link_draw
          dsimp only
          rw [if_pos hmem, hd]
          rw [if_neg Bool.false_ne_true]
          unfold GraphSt.updNodeE GraphSt.stOf
          dsimp only
          rw [hstu]
          dsimp only
          rw [hrem1]
          dsimp only
          rw [alookup_dictSet_ne _ lk.u lk.v _ (Ne.symm hne), hstv]
          dsimp only
          rw [hrem2]
        rw [hstate]
        have hkeys1 : (dictSet g.nodeSt lk.u
            { st_u with edges := dictDel st_u.edges lk.v }).map Prod.fst =
            g.nodeSt.map Prod.fst :=
          dictSet_keys_of_mem _ _ _ (by rw [hstu]; rfl)
        have hkeys2 : (dictSet (dictSet g.nodeSt lk.u
            { st_u with edges := dictDel st_u.edges lk.v })
            lk.v { st_v with edges := dictDel st_v.edges lk.u }).map Prod.fst =
            g.nodeSt.map Prod.fst := by
          rw [dictSet_keys_of_mem, hkeys1]
          rw [alookup_dictSet_ne _ lk.u lk.v _ (Ne.symm hne), hstv]
          rfl
        have hnd1 : ((dictSet g.nodeSt lk.u
            { st_u with edges := dictDel st_u.edges lk.v }).map Prod.fst).Nodup := by
          rw [hkeys1]
          exact hk3
        have hmem3 : ∀ p, p ∈ dictSet (dictSet g.nodeSt lk.u
            { st_u with edges := dictDel st_u.edges lk.v })
            lk.v { st_v with edges := dictDel st_v.edges lk.u } →
            (p ∈ g.nodeSt ∧ p.1 ≠ lk.u ∧ p.1 ≠ lk.v) ∨
            p = (lk.u, { st_u with edges := dictDel st_u.edges lk.v }) ∨
            p = (lk.v, { st_v with edges := dictDel st_v.edges lk.u }) := by
          intro p hp
          rcases dictSet_mem_strong _ _ _ hnd1 p hp with ⟨h1, h2⟩ | h1
          · rcases dictSet_mem_strong _ _ _ hk3 p h1 with ⟨h3, h4⟩ | h3
            · exact Or.inl ⟨h3, h4, h2⟩
            · exact Or.inr (Or.inl h3)
          · exact Or.inr (Or.inr h1)
        have hlinksN : g.links.Nodup := nodup_links_of_pairwise hu2
        refine ⟨⟨hk1, hk2, ?_, ?_, ?_⟩, ?_, ?_⟩
        · dsimp only
          rw [hkeys2]
          exact hk3
        · intro p hp
          dsimp only at hp ⊢
          rcases hmem3 p hp with ⟨h1, _, _⟩ | h1 | h1
          · exact hk4 p h1
          · rw [h1]
            exact hk4 (lk.u, st_u) (alookup_mem hstu)
          · rw [h1]
            exact hk4 (lk.v, st_v) (alookup_mem hstv)
        · intro x hx
          dsimp only at hx ⊢
          by_cases hxv : x = lk.v
          · rw [hxv, alookup_dictSet_self]
            rfl
          · rw [alookup_dictSet_ne _ lk.v x _ hxv]
            by_cases hxu : x = lk.u
            · rw [hxu, alookup_dictSet_self]
              rfl
            · rw [alookup_dictSet_ne _ lk.u x _ hxu]
              exact hk5 x hx
        · intro hdd
          dsimp only at hdd
          rw [hd] at hdd
          cases hdd
        · intro _
          have hpres : ∀ a b l2, edgeLookup g a b = some l2 → l2 ≠ lk →
              edgeLookup ⟨g.directed, g.nodes, g.links.erase lk,
                dictSet (dictSet g.nodeSt lk.u
                  { st_u with edges := dictDel st_u.edges lk.v })
                  lk.v { st_v with edges := dictDel st_v.edges lk.u }, g.nextIdx⟩ a b =
                some l2 := by
            intro a b l2 hab hne2
            unfold edgeLookup GraphSt.stOf at hab ⊢
            dsimp only
            by_cases hav : a = lk.v
            · rw [hav] at hab ⊢
              rw [hstv] at hab
              dsimp only at hab
              rw [alookup_dictSet_self]
              dsimp only
              have hbu : b ≠ lk.u := by
                intro hbu
                rw [hbu] at hab
                rw [hab] at hlvu
                exact hne2 (Option.some.inj hlvu)
              rw [alookup_dictDel_ne _ lk.u b hbu]
              exact hab
            · rw [alookup_dictSet_ne _ lk.v a _ hav]
              by_cases hau : a = lk.u
              · rw [hau] at hab ⊢
                rw [hstu] at hab
                dsimp only at hab
                rw [alookup_dictSet_self]
                dsimp only
                have hbv : b ≠ lk.v := by
                  intro hbv
                  rw [hbv] at hab
                  rw [hab] at hluv
                  exact hne2 (Option.some.inj hluv)
                rw [alookup_dictDel_ne _ lk.v b hbv]
                exact hab
              · rw [alookup_dictSet_ne _ lk.u a _ hau]
                exact hab
          refine ⟨?_, ?_, ?_, ?_⟩
          · intro l2 hl2
            exact hu1 l2 (List.mem_of_mem_erase hl2)
          · exact hu2.sublist (g.links.erase_sublist lk)
          · intro l2 hl2
            dsimp only at hl2
            rw [hlinksN.mem_erase_iff] at hl2
            obtain ⟨hne2, hl2m⟩ := hl2
            obtain ⟨hc1, hc2⟩ := hu3 l2 hl2m
            exact ⟨hpres l2.u l2.v l2 hc1 hne2, hpres l2.v l2.u l2 hc2 hne2⟩
          · intro p hp q hq
            dsimp only at hp ⊢
            have hmain : q.2 ∈ g.links ∧ q.2 ≠ lk ∧
                (q.2.u = p.1 ∧ q.2.v = q.1 ∨ q.2.u = q.1 ∧ q.2.v = p.1) := by
              rcases hmem3 p hp with ⟨h1, h2, h3⟩ | h1 | h1
              · obtain ⟨hq1, hq2⟩ := hu4 p h1 q hq
                refine ⟨hq1, ?_, hq2⟩
                intro hqlk
                rw [hqlk] at hq2
                rcases hq2 with ⟨ha, _⟩ | ⟨_, hb⟩
                · exact h2 ha.symm
                · exact h3 hb.symm
              · rw [h1] at hq
                dsimp only at hq
                obtain ⟨hq1, hq2⟩ := dictDel_subset _ _ q hq
                obtain ⟨hq3, hq4⟩ := hu4 (lk.u, st_u) (alookup_mem hstu) q hq1
                dsimp only at hq4
                refine ⟨hq3, ?_, by rw [h1]; exact hq4⟩
                intro hqlk
                rw [hqlk] at hq4
                rcases hq4 with ⟨_, hb⟩ | ⟨ha, hb⟩
                · exact hq2 hb.symm
                · exact hne hb.symm
              · rw [h1] at hq
                dsimp only at hq
                obtain ⟨hq1, hq2⟩ := dictDel_subset _ _ q hq
                obtain ⟨hq3, hq4⟩ := hu4 (lk.v, st_v) (alookup_mem hstv) q hq1
                dsimp only at hq4
                refine ⟨hq3, ?_, by rw [h1]; exact hq4⟩
                intro hqlk
                rw [hqlk] at hq4
                rcases hq4 with ⟨ha, hb⟩ | ⟨ha, _⟩
                · exact hne ha
                · exact hq2 ha.symm
            obtain ⟨hq1, hq2, hq3⟩ := hmain
            exact ⟨hlinksN.mem_erase_iff.2 ⟨hq2, hq1⟩, hq3⟩
      · obtain ⟨hk, hgd, hgu⟩ := hg
        obtain ⟨hdl, _⟩ := hgd hd
        rw [hdl] at hmem
        cases hmem
    · have hstate : (g.remove_link (Entity.link lk)).2.1 = g := by
        unfold GraphSt.remove_link GraphSt.remove_link_draw
        dsimp only
        rw [if_neg hmem]
      rw [hstate]
      exact hg

theorem GInv_of_Reachable (g : GraphSt) (hr : Reachable g) : GInv g := by
  induction hr with
  | empty b =>
    refine ⟨⟨?_, ?_, ?_, ?_, ?_⟩, ?_, ?_⟩ <;>
      simp [GraphSt.empty, HK, DCore, UCore]
  | addN _ ih => exact GInv.addN _ ih
  | remN v _ ih => exact GInv.remN _ v ih
  | addL u v _ ih => exact GInv.addL _ u v ih
  | remL l _ ih => exact GInv.remL _ l ih

/-! ### Layout initialisation (`_place_nodes_kamada_kawai_algorithm`, graphDrawer.py)

`place_nodes` returns at once when the graph has no node; otherwise the
algorithm computes every pairwise breadth-first distance and the scale
`l = l0 / max(dists[u][v] for u in graph for v in graph if v in dists[u])`
with `l0 = NODE_RADIUS * 8 = 160`. -/

/-- The values the generator
`(dists[u][v] for u in self.__graph for v in self.__graph if v in dists[u])`
yields, in order. -/
def kkDistValues (g : GraphSt) (hg : AdjClosed g) : List Nat :=
  (g.nodes.map (fun u =>
    g.nodes.filterMap (fun v => alookup (breadth_first_search_distances g hg u) v))).flatten

/-- Python `max(iterable)`: `ValueError` on an empty iterable, the greatest
element otherwise. -/
def pyMax (l : List Nat) : Except PyErr Nat :=
  match l with
  | [] => Except.error PyErr.valueError
  | x :: rest => Except.ok (rest.foldl Nat.max x)

/-- The scale `l = l0 / maxdist` of the Kamada–Kawai initialisation:
`ZeroDivisionError` when every pairwise distance is zero. -/
def kamadaKawaiL (g : GraphSt) (hg : AdjClosed g) : Except PyErr ℚ :=
  match pyMax (kkDistValues g hg) with
  | Except.error e => Except.error e
  | Except.ok m => if m = 0 then Except.error PyErr.zeroDivisionError
                   else Except.ok (160 / (m : ℚ))

/-- `place_nodes` up to the end of the Kamada–Kawai initialisation:
`len(graph) == 0` returns at once (no scale computed), otherwise the
initialisation runs and may raise. -/
def place_nodes_init (g : GraphSt) (hg : AdjClosed g) : Except PyErr (Option ℚ) :=
  if g.nodes.length = 0 then Except.ok none
  else match kamadaKawaiL g hg with
       | Except.error e => Except.error e
       | Except.ok l => Except.ok (some l)

theorem bfs_no_neighbors (g : GraphSt) (hg : AdjClosed g) (u : Nat)
    (hn : g.neighborsOf u = []) :
    breadth_first_search_distances g hg u = [(u, 0)] := by
  unfold breadth_first_search_distances
  rw [bfsLoop.eq_def]
  dsimp only
  rw [hn]
  rw [bfsVisit]
  dsimp only
  simp only [List.nil_append]
  rw [bfsLoop.eq_def]

theorem neighborsOf_nil_of_no_links (g : GraphSt) (hinv : GInv g)
    (hl : g.links = []) (u : Nat) : g.neighborsOf u = [] := by
  obtain ⟨hk, hgd, hgu⟩ := hinv
  unfold GraphSt.neighborsOf
  cases hd : g.directed
  · rw [if_neg Bool.false_ne_true]
    obtain ⟨_, _, _, hu4⟩ := hgu hd
    unfold GraphSt.stOf
    cases hst : alookup g.nodeSt u with
    | none => rfl
    | some st =>
      dsimp only [Option.getD]
      cases he : st.edges with
      | nil => rfl
      | cons q rest =>
        have hq := (hu4 (u, st) (alookup_mem hst) q (by rw [he]; exact List.mem_cons_self q rest)).1
        rw [hl] at hq
        cases hq
  · rw [if_pos rfl]
    obtain ⟨_, hemp⟩ := hgd hd
    unfold GraphSt.stOf
    cases hst : alookup g.nodeSt u with
    | none => rfl
    | some st =>
      dsimp only [Option.getD]
      have hst2 : st = NodeSt.empty := hemp (u, st) (alookup_mem hst)
      rw [hst2]
      rfl

theorem kkDistValues_all_zero (g : GraphSt) (hg : AdjClosed g) (hinv : GInv g)
    (hl : g.links = []) : ∀ x ∈ kkDistValues g hg, x = 0 := by
  intro x hx
  unfold kkDistValues at hx
  rw [List.mem_flatten] at hx
  obtain ⟨inner, hin, hxin⟩ := hx
  rw [List.mem_map] at hin
  obtain ⟨u, hu, hueq⟩ := hin
  rw [← hueq] at hxin
  rw [List.mem_filterMap] at hxin
  obtain ⟨v, hv, hlook⟩ := hxin
  rw [bfs_no_neighbors g hg u (neighborsOf_nil_of_no_links g hinv hl u)] at hlook
  rw [show alookup [(u, (0 : Nat))] v = if u = v then some 0 else none from rfl] at hlook
  by_cases hvu : u = v
  · rw [if_pos hvu] at hlook
    exact (Option.some.inj hlook).symm
  · rw [if_neg hvu] at hlook
    cases hlook

theorem kkDistValues_zero_mem (g : GraphSt) (hg : AdjClosed g) (hinv : GInv g)
    (hl : g.links = []) (u : Nat) (hu : u ∈ g.nodes) :
    (0 : Nat) ∈ kkDistValues g hg := by
  unfold kkDistValues
  rw [List.mem_flatten]
  refine ⟨_, List.mem_map.2 ⟨u, hu, rfl⟩, ?_⟩
  rw [List.mem_filterMap]
  refine ⟨u, hu, ?_⟩
  rw [bfs_no_neighbors g hg u (neighborsOf_nil_of_no_links g hinv hl u)]
  simp [alookup]

theorem foldl_max_eq_zero (l : List Nat) (b : Nat) :
    l.foldl Nat.max b = 0 ↔ (b = 0 ∧ ∀ x ∈ l, x = 0) := by
  induction l generalizing b with
  | nil => simp
  | cons a rest ih =>
    rw [List.foldl_cons, ih]
    constructor
    · rintro ⟨h1, h2⟩
      have hb : b = 0 ∧ a = 0 := Nat.max_eq_zero_iff.1 h1
      refine ⟨hb.1, fun x hx => ?_⟩
      rcases List.mem_cons.1 hx with h | h
      · rw [h]; exact hb.2
      · exact h2 x h
    · rintro ⟨h1, h2⟩
      have ha : a = 0 := h2 a (List.mem_cons_self a rest)
      exact ⟨Nat.max_eq_zero_iff.2 ⟨h1, ha⟩,
        fun x hx => h2 x (List.mem_cons.2 (Or.inr hx))⟩

/-! ### The per-component Kamada–Kawai minimisation (`place_component`)

The loop skeleton of `place_component` is translated exactly (counters,
caps, convergence tests, resets, the give-up exit); the floating-point
routines it calls — `delta`, `solve`, the gradient maximisation
`max((u, delta(u)) for u in comp)` and `random.randint` — enter as
oracle parameters, so every theorem below holds for every behavior of
the numerics. -/

/-- Node positions: the `positions` dict, totalised. -/
def Pos : Type := Nat → ℚ × ℚ

/-- `epsilon = 0.1`. -/
def kkEps : ℚ := 1 / 10

/-- The numeric oracles of `place_component` together with the data the
closure captures: `len(self.__graph)` and the component. -/
structure KKParams where
  nGraph : Nat
  comp : List Nat
  select : Pos → Nat × ℚ
  solveStep : Pos → Nat → ℚ × ℚ
  delta : Pos → Nat → ℚ
  rand : Nat → Nat → ℚ × ℚ

/-- `MAXIMUM_ITERATIONS_PER_NODE * len(self.__graph)` with
`MAXIMUM_ITERATIONS_PER_NODE = 100`. -/
def kkCap (P : KKParams) : Nat := 100 * P.nGraph

/-- `for v in comp: positions[v].x = random.randint(0, WIDTH); ...` —
the `k`-th reset overwrites exactly the component's positions. -/
def resetComp (P : KKParams) (k : Nat) (pos : Pos) : Pos :=
  fun x => if x ∈ P.comp then P.rand k x else pos x

/-- `dx, dy = solve(u); posi.x += dx; posi.y += dy`. -/
def posMove (P : KKParams) (pos : Pos) (u : Nat) : Pos :=
  fun x => if x = u then
      ((pos u).1 + (P.solveStep pos u).1, (pos u).2 + (P.solveStep pos u).2)
    else pos x

/-- How one run of the inner `while` loop ends: the gradient dropped to
`epsilon` (loop test fails), the iteration caps fired and the positions
were reset (`break`), or the caps fired with more than 10 resets done
(`return`, giving up). -/
inductive InnerRes where
  | converged (pos : Pos) (u : Nat) (dlt : ℚ)
  | reset (pos : Pos) (resetIdx : Nat)
  | gaveUp (pos : Pos)

/-- The inner `while dlt > epsilon` loop, entered with `inner_iteration
= inner`.  Each pass increments `inner_iteration`, fires the cap test
`outer_iteration > cap or inner_iteration > cap` (then either gives up
or resets and breaks), and otherwise moves node `u` and recomputes
`dlt`. -/
def kkInner (P : KKParams) (pos : Pos) (u : Nat) (dlt : ℚ)
    (outer resetIdx inner : Nat) : InnerRes :=
  if dlt ≤ kkEps then .converged pos u dlt
  else if h : kkCap P < outer ∨ kkCap P < inner + 1 then
    if 10 < resetIdx then .gaveUp pos
    else .reset (resetComp P resetIdx pos) (resetIdx + 1)
  else
    kkInner P (posMove P pos u) u (P.delta (posMove P pos u) u) outer resetIdx (inner + 1)
termination_by kkCap P + 1 - inner
decreasing_by
  push_neg at h
  omega

theorem kkInner_eq (P : KKParams) (pos : Pos) (u : Nat) (dlt : ℚ)
    (outer resetIdx inner : Nat) :
    kkInner P pos u dlt outer resetIdx inner =
      if dlt ≤ kkEps then InnerRes.converged pos u dlt
      else if kkCap P < outer ∨ kkCap P < inner + 1 then
        if 10 < resetIdx then InnerRes.gaveUp pos
        else InnerRes.reset (resetComp P resetIdx pos) (resetIdx + 1)
      else kkInner P (posMove P pos u) u (P.delta (posMove P pos u) u)
        outer resetIdx (inner + 1) := by
  rw [kkInner]
  rfl

/-- Exhaustive description of how `kkInner` can end: a reset increments
`reset_index` from a value at most 10, giving up needs more than 10
resets already done, and a convergence that was not immediate certifies
`outer_iteration ≤ cap` (the cap test passed on the pass that reached
`dlt ≤ epsilon`). -/
theorem kkInner_cases (P : KKParams) :
    ∀ (n : Nat) (pos : Pos) (u : Nat) (dlt : ℚ) (outer resetIdx inner : Nat),
      kkCap P + 1 - inner = n →
      (∀ pos1 ri1, kkInner P pos u dlt outer resetIdx inner = InnerRes.reset pos1 ri1 →
        resetIdx ≤ 10 ∧ ri1 = resetIdx + 1) ∧
      (∀ pos1, kkInner P pos u dlt outer resetIdx inner = InnerRes.gaveUp pos1 →
        10 < resetIdx) ∧
      (∀ pos1 u1 dlt1, ¬ dlt ≤ kkEps →
        kkInner P pos u dlt outer resetIdx inner = InnerRes.converged pos1 u1 dlt1 →
        outer ≤ kkCap P) := by
  intro n
  induction n using Nat.strong_induction_on with
  | _ n ih =>
    intro pos u dlt outer resetIdx inner hn
    rw [kkInner_eq]
    by_cases h1 : dlt ≤ kkEps
    · rw [if_pos h1]
      refine ⟨?_, ?_, ?_⟩
      · intro pos1 ri1 h
        cases h
      · intro pos1 h
        cases h
      · intro pos1 u1 dlt1 hd h
        exact absurd h1 hd
    · rw [if_neg h1]
      by_cases h2 : kkCap P < outer ∨ kkCap P < inner + 1
      · rw [if_pos h2]
        by_cases h3 : 10 < resetIdx
        · rw [if_pos h3]
          refine ⟨?_, ?_, ?_⟩
          · intro pos1 ri1 h
            cases h
          · intro pos1 h
            exact h3
          · intro pos1 u1 dlt1 hd h
            cases h
        · rw [if_neg h3]
          refine ⟨?_, ?_, ?_⟩
          · intro pos1 ri1 h
            injection h with ha hb
            exact ⟨by omega, hb.symm⟩
          · intro pos1 h
            cases h
          · intro pos1 u1 dlt1 hd h
            cases h
      · rw [if_neg h2]
        push_neg at h2
        have hlt : kkCap P + 1 - (inner + 1) < n := by omega
        have hrec := ih _ hlt (posMove P pos u) u (P.delta (posMove P pos u) u)
          outer resetIdx (inner + 1) rfl
        refine ⟨hrec.1, hrec.2.1, ?_⟩
        intro pos1 u1 dlt1 hd h
        exact h2.1

/-- What `place_component` ends with: the positions, the number of
random restarts performed, and whether it gave up (`return` inside the
cap branch) rather than converging. -/
structure KKRun where
  pos : Pos
  resets : Nat
  gaveUp : Bool

/-- The outer `while dlt > epsilon` loop.  Each pass increments
`outer_iteration` and runs the inner loop from `inner_iteration = 0`;
a `break` out of the inner loop resets `outer_iteration` to 0 and keeps
the incremented `reset_index`; after either exit the node of maximal
gradient is reselected. -/
def kkOuter (P : KKParams) (pos : Pos) (u : Nat) (dlt : ℚ)
    (outer resetIdx : Nat) : KKRun :=
  if _hconv : dlt ≤ kkEps then ⟨pos, resetIdx, false⟩
  else
    match hres : kkInner P pos u dlt (outer + 1) resetIdx 0 with
    | .converged pos1 _ _ =>
      kkOuter P pos1 (P.select pos1).1 (P.select pos1).2 (outer + 1) resetIdx
    | .reset pos1 ri1 =>
      kkOuter P pos1 (P.select pos1).1 (P.select pos1).2 0 ri1
    | .gaveUp pos1 => ⟨pos1, resetIdx, true⟩
termination_by (12 - resetIdx, kkCap P + 2 - outer)
decreasing_by
  · apply Prod.Lex.right
    have hc := ((kkInner_cases P (kkCap P + 1 - 0) pos u dlt (outer + 1)
      resetIdx 0 rfl).2.2) pos1 _ _ _hconv hres
    omega
  · have hc := ((kkInner_cases P (kkCap P + 1 - 0) pos u dlt (outer + 1)
      resetIdx 0 rfl).1) pos1 ri1 hres
    apply Prod.Lex.left
    omega

/-- `place_component(comp)`: initial node selection, `reset_index = 0`,
`outer_iteration = 0`, then the nested loops. -/
def place_component (P : KKParams) (pos : Pos) : KKRun :=
  kkOuter P pos (P.select pos).1 (P.select pos).2 0 0

theorem kkOuter_resets (P : KKParams) :
    ∀ (m : Nat) (pos : Pos) (u : Nat) (dlt : ℚ) (outer resetIdx : Nat),
      12 - resetIdx = m → resetIdx ≤ 11 →
      (kkOuter P pos u dlt outer resetIdx).resets ≤ 11 ∧
      ((kkOuter P pos u dlt outer resetIdx).gaveUp = true →
        (kkOuter P pos u dlt outer resetIdx).resets = 11) := by
  intro m
  induction m using Nat.strong_induction_on with
  | _ m ihm =>
    intro pos u dlt outer resetIdx hm hri
    have hout : ∀ (k : Nat) (pos : Pos) (u : Nat) (dlt : ℚ) (outer : Nat),
        kkCap P + 2 - outer = k →
        (kkOuter P pos u dlt outer resetIdx).resets ≤ 11 ∧
        ((kkOuter P pos u dlt outer resetIdx).gaveUp = true →
          (kkOuter P pos u dlt outer resetIdx).resets = 11) := by
      intro k
      induction k using Nat.strong_induction_on with
      | _ k ihk =>
        intro pos u dlt outer hk
        rw [kkOuter]
        by_cases h1 : dlt ≤ kkEps
        · rw [dif_pos h1]
          exact ⟨hri, fun h => by cases h⟩
        · rw [dif_neg h1]
          cases hres : kkInner P pos u dlt (outer + 1) resetIdx 0 with
          | converged pos1 u1 dlt1 =>
            have hc := ((kkInner_cases P (kkCap P + 1 - 0) pos u dlt (outer + 1)
              resetIdx 0 rfl).2.2) pos1 u1 dlt1 h1 hres
            exact ihk (kkCap P + 2 - (outer + 1)) (by omega) pos1
              (P.select pos1).1 (P.select pos1).2 (outer + 1) rfl
          | reset pos1 ri1 =>
            have hc := ((kkInner_cases P (kkCap P + 1 - 0) pos u dlt (outer + 1)
              resetIdx 0 rfl).1) pos1 ri1 hres
            exact ihm (12 - ri1) (by omega) pos1
              (P.select pos1).1 (P.select pos1).2 0 ri1 rfl (by omega)
          | gaveUp pos1 =>
            have hc := ((kkInner_cases P (kkCap P + 1 - 0) pos u dlt (outer + 1)
              resetIdx 0 rfl).2.1) pos1 hres
            exact ⟨by dsimp only; omega, fun _ => by dsimp only; omega⟩
    exact hout (kkCap P + 2 - outer) pos u dlt outer rfl

/-! ### Concrete scenario states -/

/-- An empty undirected graph, as `UndirectedGraph()` builds it. -/
def gEmptyU : GraphSt := GraphSt.empty false

/-- One undirected node, no link: the state after `UndirectedGraph();
add_node()`. -/
def gOne : GraphSt := ⟨false, [1], [], [(1, NodeSt.empty)], 2⟩

/-- A directed graph with two nodes and no arc: the state after
`DirectedGraph(); add_node(); add_node()`. -/
def gTwoD : GraphSt := ⟨true, [1, 2], [], [(1, NodeSt.empty), (2, NodeSt.empty)], 3⟩

/-- The path graph `v1-v2-v3-v4-v5` of the specification's scenario, as
five `add_node` and four `add_edge` calls build it. -/
def pathG : GraphSt :=
  ⟨false, [1, 2, 3, 4, 5],
   [⟨1, 2⟩, ⟨2, 3⟩, ⟨3, 4⟩, ⟨4, 5⟩],
   [(1, ⟨[(2, ⟨1, 2⟩)], [], [], []⟩),
    (2, ⟨[(1, ⟨1, 2⟩), (3, ⟨2, 3⟩)], [], [], []⟩),
    (3, ⟨[(2, ⟨2, 3⟩), (4, ⟨3, 4⟩)], [], [], []⟩),
    (4, ⟨[(3, ⟨3, 4⟩), (5, ⟨4, 5⟩)], [], [], []⟩),
    (5, ⟨[(4, ⟨4, 5⟩)], [], [], []⟩)],
   6⟩

/-- The node object of node 1 in `gBoth`. -/
def stOneB : NodeSt := ⟨[], [(2, ⟨2, 1⟩)], [(2, ⟨1, 2⟩)], [2]⟩

/-- The node object of node 2 in `gBoth`. -/
def stTwoB : NodeSt := ⟨[], [(1, ⟨1, 2⟩)], [(1, ⟨2, 1⟩)], [1]⟩

/-- A directed graph holding both arcs `(1,2)` and `(2,1)` with all
adjacency maps wired as `_add_link`'s registration would wire them. -/
def gBoth : GraphSt :=
  ⟨true, [1, 2], [⟨1, 2⟩, ⟨2, 1⟩], [(1, stOneB), (2, stTwoB)], 3⟩

theorem gOne_reachable : Reachable gOne :=
  Reachable.addN (Reachable.empty false)

theorem gOne_adjClosed : AdjClosed gOne := by decide

theorem gEmptyU_adjClosed : AdjClosed gEmptyU := by decide

theorem pathG_reachable : Reachable pathG :=
  Reachable.addL (Entity.node 4) (Entity.node 5)
    (Reachable.addL (Entity.node 3) (Entity.node 4)
      (Reachable.addL (Entity.node 2) (Entity.node 3)
        (Reachable.addL (Entity.node 1) (Entity.node 2)
          (Reachable.addN (Reachable.addN (Reachable.addN (Reachable.addN
            (Reachable.addN (Reachable.empty false)))))))))

theorem pathG_adjClosed : AdjClosed pathG := by decide

theorem pathG_bfs :
    breadth_first_search_distances pathG pathG_adjClosed 1 =
      [(1, 0), (2, 1), (3, 2), (4, 3), (5, 4)] := by
  simp [breadth_first_search_distances, bfsLoop, bfsVisit, alookup, dictSet,
    GraphSt.neighborsOf, GraphSt.stOf, pathG]

/-! ### The claims -/

/-- C1.  The claim says `remove_node(v)` on a member node succeeds,
removing the node, its incident links (one `link_removed` event each,
refresh hint false) and then publishing one `node_removed` event.  The
code instead always raises: after `self.__nodes.remove(v)` it reads
`v.incident_edges_and_arcs` (graph.py, line 121), an attribute no node
class defines, so an `AttributeError` escapes with the node already
gone from the node list, every link still present and no event
published. -/
theorem C1_remove_node_always_raises (g : GraphSt) (i : Nat) (hi : i ∈ g.nodes) :
    (g.remove_node (Entity.node i)).1 = Except.error PyErr.attributeError ∧
    (g.remove_node (Entity.node i)).2.1.nodes = g.nodes.erase i ∧
    (g.remove_node (Entity.node i)).2.1.links = g.links ∧
    (g.remove_node (Entity.node i)).2.2 = [] := by
  unfold GraphSt.remove_node
  dsimp only
  rw [if_pos hi]
  exact ⟨rfl, rfl, rfl, rfl⟩

theorem C1_remove_node_always_raises_witness :
    (pathG.remove_node (Entity.node 1)).1 = Except.error PyErr.attributeError ∧
    (pathG.remove_node (Entity.node 1)).2.1.nodes = pathG.nodes.erase 1 ∧
    (pathG.remove_node (Entity.node 1)).2.1.links = pathG.links ∧
    (pathG.remove_node (Entity.node 1)).2.2 = [] :=
  C1_remove_node_always_raises pathG 1 (by decide)

/-- C2.  The claim says the layout computation raises no observable
error on any graph.  In fact for every reachable graph that has at
least one node and no link — every linkless undirected graph, and every
directed graph, since `add_arc` never succeeds — all pairwise
breadth-first distances are 0, so the initialisation
`l = l0 / max(dists[u][v] ...)` raises `ZeroDivisionError`; only the
zero-node early return is safe. -/
theorem C2_layout_init_zero_division (g : GraphSt) (hg : AdjClosed g)
    (hr : Reachable g) (hl : g.links = []) :
    (g.nodes = [] → place_nodes_init g hg = Except.ok none) ∧
    (g.nodes ≠ [] → place_nodes_init g hg = Except.error PyErr.zeroDivisionError) := by
  have hinv := GInv_of_Reachable g hr
  constructor
  · intro hn
    unfold place_nodes_init
    rw [if_pos (by rw [hn]; rfl)]
  · intro hn
    have hkk : kamadaKawaiL g hg = Except.error PyErr.zeroDivisionError := by
      cases hnodes : g.nodes with
      | nil => exact absurd hnodes hn
      | cons a rest =>
        have hmem0 : (0 : Nat) ∈ kkDistValues g hg :=
          kkDistValues_zero_mem g hg hinv hl a
            (by rw [hnodes]; exact List.mem_cons_self a rest)
        have hall := kkDistValues_all_zero g hg hinv hl
        unfold kamadaKawaiL
        cases hkv : kkDistValues g hg with
        | nil =>
          rw [hkv] at hmem0
          cases hmem0
        | cons x xs =>
          dsimp only [pyMax]
          have hx : x = 0 := hall x (by rw [hkv]; exact List.mem_cons_self x xs)
          have hxs : ∀ y ∈ xs, y = 0 := fun y hy =>
            hall y (by rw [hkv]; exact List.mem_cons.2 (Or.inr hy))
          have hfold : xs.foldl Nat.max x = 0 := (foldl_max_eq_zero xs x).2 ⟨hx, hxs⟩
          rw [hfold]
          rfl
    unfold place_nodes_init
    rw [if_neg (fun h => hn (List.length_eq_zero.1 h)), hkk]

theorem C2_layout_init_zero_division_witness :
    place_nodes_init gEmptyU gEmptyU_adjClosed = Except.ok none ∧
    place_nodes_init gOne gOne_adjClosed = Except.error PyErr.zeroDivisionError :=
  ⟨(C2_layout_init_zero_division gEmptyU gEmptyU_adjClosed
      (Reachable.empty false) rfl).1 rfl,
   (C2_layout_init_zero_division gOne gOne_adjClosed
      gOne_reachable rfl).2 (by decide)⟩

theorem C2_layout_one_node_counterexample :
    place_nodes_init gOne gOne_adjClosed = Except.error PyErr.zeroDivisionError := by
  have hb : breadth_first_search_distances gOne gOne_adjClosed 1 = [(1, 0)] :=
    bfs_no_neighbors gOne gOne_adjClosed 1 rfl
  have hkv : kkDistValues gOne gOne_adjClosed = [0] := by
    unfold kkDistValues
    rw [show gOne.nodes = [1] from rfl, List.map_cons, List.map_nil]
    rw [hb]
    rfl
  unfold place_nodes_init
  rw [if_neg (by decide)]
  unfold kamadaKawaiL
  rw [hkv]
  rfl

/-- C3.  In every reachable state the graph is simple: no link joins
equal endpoints, an undirected graph holds at most one edge per
unordered pair, and a directed graph holds at most one arc per ordered
pair — indeed its link list is always empty, since `add_arc` never
succeeds.  The self-loop part of the claim is corrected: `add_link(e, e)`
raises `GraphError` only when `e` is already a member of the graph;
membership is checked first, so a non-member argument raises
`NodeMembershipError` (or `TypeError`), not the invariant error. -/
theorem C3_reachable_simple (g : GraphSt) (hr : Reachable g) :
    (∀ l ∈ g.links, l.u ≠ l.v) ∧
    (g.directed = false → List.Pairwise (fun l1 l2 => ¬ sameUnordered l1 l2) g.links) ∧
    (g.directed = true → g.links = []) ∧
    (∀ e : Entity, (g.add_link e e).1 =
      if g.containsEnt e then Except.error PyErr.graphError
      else match e with
        | Entity.node i => Except.error (PyErr.nodeMembership i)
        | _ => Except.error PyErr.typeError) := by
  obtain ⟨hk, hgd, hgu⟩ := GInv_of_Reachable g hr
  refine ⟨?_, ?_, ?_, ?_⟩
  · intro l hl
    cases hd : g.directed
    · exact (hgu hd).1 l hl
    · rw [(hgd hd).1] at hl
      cases hl
  · intro hd
    exact (hgu hd).2.1
  · intro hd
    exact (hgd hd).1
  · intro e
    by_cases hc : g.containsEnt e = true
    · rw [if_pos hc]
      simp [GraphSt.add_link, hc]
    · rw [if_neg hc]
      cases e <;> simp [GraphSt.add_link, hc]

theorem C3_reachable_simple_witness :
    (∀ l ∈ pathG.links, l.u ≠ l.v) ∧
    (pathG.directed = false →
      List.Pairwise (fun l1 l2 => ¬ sameUnordered l1 l2) pathG.links) :=
  ⟨(C3_reachable_simple pathG pathG_reachable).1,
   (C3_reachable_simple pathG pathG_reachable).2.1⟩

theorem C3_self_loop_counterexample :
    ((GraphSt.empty false).add_link (Entity.node 1) (Entity.node 1)).1 =
      Except.error (PyErr.nodeMembership 1) := by
  decide

/-- C4.  `breadth_first_search_distances(g, s)` returns a map keyed by
exactly the nodes reachable from `s` along the recorded neighbor
relation, sending `s` to 0 and every key to the length of a shortest
walk from `s`; unreachable nodes are absent.  On the path graph
`v1-v2-v3-v4-v5` the map from `v1` is `{v1:0, v2:1, v3:2, v4:3, v5:4}`. -/
theorem C4_bfs_distances_correct (g : GraphSt) (hg : AdjClosed g) (v : Nat) :
    ((∀ x, (alookup (breadth_first_search_distances g hg v) x).isSome = true ↔
        ∃ n, reach g.neighborsOf v n x) ∧
     (∀ x d, alookup (breadth_first_search_distances g hg v) x = some d →
        reach g.neighborsOf v d x ∧ ∀ m, reach g.neighborsOf v m x → d ≤ m) ∧
     alookup (breadth_first_search_distances g hg v) v = some 0) ∧
    breadth_first_search_distances pathG pathG_adjClosed 1 =
      [(1, 0), (2, 1), (3, 2), (4, 3), (5, 4)] :=
  ⟨bfs_correct g hg v, pathG_bfs⟩

theorem C4_bfs_distances_correct_witness :
    alookup (breadth_first_search_distances pathG pathG_adjClosed 1) 1 = some 0 ∧
    breadth_first_search_distances pathG pathG_adjClosed 1 =
      [(1, 0), (2, 1), (3, 2), (4, 3), (5, 4)] :=
  ⟨(C4_bfs_distances_correct pathG pathG_adjClosed 1).1.2.2,
   (C4_bfs_distances_correct pathG pathG_adjClosed 1).2⟩

/-- C5.  The claim says `add_arc(u, v)` fails with `LinkExists` exactly
on a duplicate ordered pair and succeeds otherwise.  The code's build
step is `Arc(self, u, v)` (directedgraph.py, line 62): three arguments
to the inherited two-parameter `_Link.__init__`, so on a directed graph
every `add_arc` whose checks pass raises `TypeError` instead of
creating the arc — no call ever succeeds, the graph is never mutated,
no event is published, and the duplicate case is unreachable. -/
theorem C5_add_arc_raises_type_error (g : GraphSt) (u v : Entity)
    (hd : g.directed = true) :
    ((g.add_link u v).2.1 = g ∧ (g.add_link u v).2.2 = [] ∧
      ∃ e, (g.add_link u v).1 = Except.error e) ∧
    (gTwoD.add_link (Entity.node 1) (Entity.node 2)).1 =
      Except.error PyErr.typeError :=
  ⟨add_link_directed g u v hd, by decide⟩

theorem C5_add_arc_raises_type_error_witness :
    (gTwoD.add_link (Entity.node 1) (Entity.node 2)).2.1 = gTwoD ∧
    (gTwoD.add_link (Entity.node 1) (Entity.node 2)).2.2 = [] ∧
    ∃ e, (gTwoD.add_link (Entity.node 1) (Entity.node 2)).1 = Except.error e :=
  (C5_add_arc_raises_type_error gTwoD (Entity.node 1) (Entity.node 2) rfl).1

/-- C6.  In a directed graph holding both arcs `(u,v)` and `(v,u)`,
removing only the arc `(u,v)` leaves `u.is_neighbor_of(v)` and
`v.is_neighbor_of(u)` true; in general `_remove_output_neighbor` /
`_remove_input_neighbor` delete the entry from the one map addressed
and drop the neighbor from the deduplicated neighbor set only when the
other map no longer contains it. -/
theorem C6_arc_removal_neighbor_persistence
    (g : GraphSt) (u v : Nat) (stu stv : NodeSt)
    (hd : g.directed = true) (hne : u ≠ v)
    (hmem : Link.mk u v ∈ g.links)
    (hstu : alookup g.nodeSt u = some stu)
    (hstv : alookup g.nodeSt v = some stv)
    (houtu : dictMem stu.outputArcs v = true)
    (hinu : dictMem stu.inputArcs v = true)
    (hinv1 : dictMem stv.inputArcs u = true)
    (houtv : dictMem stv.outputArcs u = true)
    (hnbu : v ∈ stu.nbrs) (hnbv : u ∈ stv.nbrs) :
    (∃ stu1 stv1,
      alookup (g.remove_link (Entity.link ⟨u, v⟩)).2.1.nodeSt u = some stu1 ∧
      alookup (g.remove_link (Entity.link ⟨u, v⟩)).2.1.nodeSt v = some stv1 ∧
      stu1.is_neighbor_of v = true ∧ stv1.is_neighbor_of u = true ∧
      (g.remove_link (Entity.link ⟨u, v⟩)).1 = Except.ok ()) ∧
    (∀ (st : NodeSt) (w : Nat), dictMem st.outputArcs w = true → w ∈ st.nbrs →
      st.removeOutputNeighbor w = Except.ok
        { st with
            outputArcs := dictDel st.outputArcs w,
            nbrs := if dictMem st.inputArcs w then st.nbrs else st.nbrs.erase w }) ∧
    (∀ (st : NodeSt) (w : Nat), dictMem st.inputArcs w = true → w ∈ st.nbrs →
      st.removeInputNeighbor w = Except.ok
        { st with
            inputArcs := dictDel st.inputArcs w,
            nbrs := if dictMem st.outputArcs w then st.nbrs else st.nbrs.erase w }) := by
  have hro : ∀ (st : NodeSt) (w : Nat), dictMem st.outputArcs w = true → w ∈ st.nbrs →
      st.removeOutputNeighbor w = Except.ok
        { st with
            outputArcs := dictDel st.outputArcs w,
            nbrs := if dictMem st.inputArcs w then st.nbrs else st.nbrs.erase w } := by
    intro st w h1 h2
    unfold NodeSt.removeOutputNeighbor NodeSt.is_output_neighbor_of
    rw [if_pos h1]
    dsimp only
    by_cases h3 : dictMem st.inputArcs w = true
    · rw [if_pos h3, if_pos h3]
    · rw [if_neg h3, if_neg h3, if_pos h2]
  have hri : ∀ (st : NodeSt) (w : Nat), dictMem st.inputArcs w = true → w ∈ st.nbrs →
      st.removeInputNeighbor w = Except.ok
        { st with
            inputArcs := dictDel st.inputArcs w,
            nbrs := if dictMem st.outputArcs w then st.nbrs else st.nbrs.erase w } := by
    intro st w h1 h2
    unfold NodeSt.removeInputNeighbor NodeSt.is_input_neighbor_of
    rw [if_pos h1]
    dsimp only
    by_cases h3 : dictMem st.outputArcs w = true
    · rw [if_pos h3, if_pos h3]
    · rw [if_neg h3, if_neg h3, if_pos h2]
  have hrem1 : stu.removeIncidentArc u ⟨u, v⟩ =
      Except.ok { stu with outputArcs := dictDel stu.outputArcs v } := by
    unfold NodeSt.removeIncidentArc
    dsimp only
    rw [if_pos rfl, hro stu v houtu hnbu, if_pos hinu]
  have hrem2 : stv.removeIncidentArc v ⟨u, v⟩ =
      Except.ok { stv with inputArcs := dictDel stv.inputArcs u } := by
    unfold NodeSt.removeIncidentArc
    dsimp only
    rw [if_neg (Ne.symm hne), if_pos rfl, hri stv u hinv1 hnbv, if_pos houtv]
  have hstate : g.remove_link (Entity.link ⟨u, v⟩) =
      (Except.ok (), ⟨g.directed, g.nodes, g.links.erase ⟨u, v⟩,
        dictSet (dictSet g.nodeSt u { stu with outputArcs := dictDel stu.outputArcs v })
          v { stv with inputArcs := dictDel stv.inputArcs u }, g.nextIdx⟩,
       [GEvent.removeLink ⟨u, v⟩ true]) := by
    unfold GraphSt.remove_link GraphSt.remove_link_draw
    dsimp only
    rw [if_pos hmem, hd, if_pos rfl]
    unfold GraphSt.updNodeE GraphSt.stOf
    dsimp only
    rw [hstu]
    dsimp only
    rw [hrem1]
    dsimp only
    rw [alookup_dictSet_ne _ u v _ (Ne.symm hne), hstv]
    dsimp only
    rw [hrem2]
  refine ⟨⟨{ stu with outputArcs := dictDel stu.outputArcs v },
    { stv with inputArcs := dictDel stv.inputArcs u }, ?_, ?_, ?_, ?_, ?_⟩, hro, hri⟩
  · rw [hstate]
    dsimp only
    rw [alookup_dictSet_ne _ v u _ hne, alookup_dictSet_self]
  · rw [hstate]
    dsimp only
    rw [alookup_dictSet_self]
  · unfold NodeSt.is_neighbor_of
    dsimp only
    exact decide_eq_true hnbu
  · unfold NodeSt.is_neighbor_of
    dsimp only
    exact decide_eq_true hnbv
  · rw [hstate]

theorem C6_arc_removal_neighbor_persistence_witness :
    (∃ stu1 stv1,
      alookup (gBoth.remove_link (Entity.link ⟨1, 2⟩)).2.1.nodeSt 1 = some stu1 ∧
      alookup (gBoth.remove_link (Entity.link ⟨1, 2⟩)).2.1.nodeSt 2 = some stv1 ∧
      stu1.is_neighbor_of 2 = true ∧ stv1.is_neighbor_of 1 = true ∧
      (gBoth.remove_link (Entity.link ⟨1, 2⟩)).1 = Except.ok ()) ∧
    (∀ (st : NodeSt) (w : Nat), dictMem st.outputArcs w = true → w ∈ st.nbrs →
      st.removeOutputNeighbor w = Except.ok
        { st with
            outputArcs := dictDel st.outputArcs w,
            nbrs := if dictMem st.inputArcs w then st.nbrs else st.nbrs.erase w }) ∧
    (∀ (st : NodeSt) (w : Nat), dictMem st.inputArcs w = true → w ∈ st.nbrs →
      st.removeInputNeighbor w = Except.ok
        { st with
            inputArcs := dictDel st.inputArcs w,
            nbrs := if dictMem st.outputArcs w then st.nbrs else st.nbrs.erase w }) :=
  C6_arc_removal_neighbor_persistence gBoth 1 2 stOneB stTwoB rfl (by decide)
    (by decide) rfl rfl (by decide) (by decide) (by decide) (by decide)
    (by decide) (by decide)

/-- C7.  The claim says membership (`e in g`) tests nodes and links for
both graph families.  `DirectedGraph.__contains__` does; but neither
`UndirectedGraph` nor `_Graph` defines `__contains__`, so on an
undirected graph `in` falls back to iteration over `__iter__` (the
nodes): a node is found as claimed, while `edge in g` is `False` for
every edge, present or not. -/
theorem C7_membership_test (g : GraphSt) :
    (∀ i, g.containsEnt (Entity.node i) = decide (i ∈ g.nodes)) ∧
    (g.directed = true → ∀ l, g.containsEnt (Entity.link l) = decide (l ∈ g.links)) ∧
    (g.directed = false → ∀ l, g.containsEnt (Entity.link l) = false) := by
  refine ⟨?_, ?_, ?_⟩
  · intro i
    unfold GraphSt.containsEnt
    cases g.directed <;> rfl
  · intro hd l
    unfold GraphSt.containsEnt
    rw [hd, if_pos rfl]
  · intro hd l
    unfold GraphSt.containsEnt
    rw [hd, if_neg Bool.false_ne_true]

/-- C8.  The per-component Kamada–Kawai minimisation terminates, and
the stagnation guard works as claimed: on any pass where
`outer_iteration` or `inner_iteration` exceeds `100 * len(graph)`
without the gradient having dropped to `epsilon`, the component's
positions are rewritten from the random source and the search resumes
(`reset_index` incremented) — unless more than 10 resets are already
done, in which case the run gives up and returns the current
positions.  Consequently a full run performs at most 11 resets, and
ends by giving up only with exactly 11 resets done.  The numeric
routines (`delta`, `solve`, node selection, `random.randint`) are
oracle parameters, so this holds for every behavior of the
floating-point arithmetic. -/
theorem C8_layout_termination (P : KKParams) (pos : Pos) :
    (place_component P pos).resets ≤ 11 ∧
    ((place_component P pos).gaveUp = true → (place_component P pos).resets = 11) ∧
    (∀ (pos0 : Pos) (u : Nat) (dlt : ℚ) (outer resetIdx inner : Nat),
      ¬ dlt ≤ kkEps → (kkCap P < outer ∨ kkCap P < inner + 1) →
      kkInner P pos0 u dlt outer resetIdx inner =
        if 10 < resetIdx then InnerRes.gaveUp pos0
        else InnerRes.reset (resetComp P resetIdx pos0) (resetIdx + 1)) := by
  have h := kkOuter_resets P (12 - 0) pos (P.select pos).1 (P.select pos).2 0 0
    rfl (by omega)
  refine ⟨h.1, h.2, ?_⟩
  intro pos0 u dlt outer resetIdx inner hd hcap
  rw [kkInner_eq, if_neg hd, if_pos hcap]

/-- C9.  The claim says `get_incident_arc(v)` returns the input arc
when present and otherwise falls back to the output arc.  The input-arc
priority is real; the fallback is dead code: on a missing key the
`except KeyError` handler reads `self.__graph`, mangled to
`_DirectedNode__graph`, while `_Node.__init__` only ever sets
`_Node__graph`, so the handler raises `AttributeError` instead of the
`NodeError` the fallback catches — whenever no input arc exists the
call raises, even if an output arc is present. -/
theorem C9_get_incident_arc_fallback_dead (st : NodeSt) (v : Nat) :
    (∀ a, alookup st.inputArcs v = some a →
      st.get_incident_arc (Entity.node v) = Except.ok a) ∧
    (alookup st.inputArcs v = none →
      st.get_incident_arc (Entity.node v) = Except.error PyErr.attributeError) := by
  constructor
  · intro a ha
    unfold NodeSt.get_incident_arc NodeSt.get_input_arc
    dsimp only
    rw [ha]
  · intro ha
    unfold NodeSt.get_incident_arc NodeSt.get_input_arc
    dsimp only
    rw [ha]

/-- C10.  `add_edge` / `add_arc` is atomic on failure: whenever
`_add_link` raises — membership, self-loop or duplicate failure on
either family, and also the constructor `TypeError` of the directed
build step — the graph state (node list, link list and every node's
adjacency maps) is returned exactly as it was and no event is
published: every check precedes the first mutation. -/
theorem C10_add_link_atomic_on_failure (g : GraphSt) (u v : Entity) (e : PyErr)
    (h : (g.add_link u v).1 = Except.error e) :
    (g.add_link u v).2.1 = g ∧ (g.add_link u v).2.2 = [] :=
  add_link_error g u v e h

theorem C10_add_link_atomic_on_failure_witness :
    (gOne.add_link (Entity.node 1) (Entity.node 1)).2.1 = gOne ∧
    (gOne.add_link (Entity.node 1) (Entity.node 1)).2.2 = [] :=
  C10_add_link_atomic_on_failure gOne (Entity.node 1) (Entity.node 1)
    PyErr.graphError (by decide)
